import Mathlib

/-!
Verification of the metadata round-trip example
`src/python/add_metadata_to_python_using_parquet_and_arrow.py`.

The script builds a pandas DataFrame, converts it to an Arrow table, encodes a
custom metadata record with `json.dumps` (default arguments, in particular
`ensure_ascii=True`), merges it into the table's schema metadata under the
namespaced key `"weatherapp.iot"` with the dict literal
`\x7bkey: value, **existing\x7d`, replaces the schema metadata, writes the
table to a Parquet file with GZIP compression, reads it back and decodes the
stored record with `json.loads`.

The development below embeds, in order:
* byte strings and the Python `dict` operations used by the merge;
* JSON values (the restricted value set of the spec: strings, integers,
  booleans, null, sequences, mappings) together with a model of CPython's
  `json.dumps` (ASCII escaping, `", "` and `": "` separators) and of
  `json.loads` (a fueled recursive-descent scanner following CPython's
  `json/scanner.py` and `json/decoder.py`);
* UTF-8 encoding and decoding for the `str.encode()` / bytes handling;
* the parts of pandas/pyarrow the script calls, modelled from the spec
  (their code is not part of this repository);
* the script's own pipeline, line by line.

Numbers are modelled as integers: the only numbers the pipeline carries are
inside the column data, never inside the JSON metadata record, and Python
floats are outside the scope of this embedding.
-/

/-- Byte strings: Python `bytes` values (Arrow schema metadata keys and
values), modelled as lists of byte values. -/
abbrev Bytes := List Nat

/-! ### Python dict model

Python dicts preserve insertion order; writing to an existing key updates the
value in place (the entry keeps its position), writing to a fresh key appends
the entry at the end.  A dict literal evaluates its entries left to right,
later entries overwriting earlier ones, so in `\x7bk: v, **existing\x7d`
(source line 49) an entry of `existing` with key `k` silently overwrites the
new value `v`. -/

/-- Model of a single Python dict store `d[k] = v` on an insertion-ordered
association list. -/
def dictInsert {α β : Type} [DecidableEq α] : List (α × β) → α → β → List (α × β)
  | [], k, v => [(k, v)]
  | (k0, v0) :: t, k, v => if k0 = k then (k0, v) :: t else (k0, v0) :: dictInsert t k v

/-- Model of a Python dict lookup `d[k]`: `some` the stored value, with `none`
modelling the `KeyError` raised for an absent key. -/
def dictGet {α β : Type} [DecidableEq α] : List (α × β) → α → Option β
  | [], _ => none
  | (k0, v0) :: t, k => if k0 = k then some v0 else dictGet t k

/-- Model of the dict literal `\x7bkey: value, **existing\x7d` from source
line 49: start from the single new entry and insert every entry of `existing`
in order. -/
def pyDictLit {α β : Type} [DecidableEq α] (key : α) (value : β)
    (existing : List (α × β)) : List (α × β) :=
  existing.foldl (fun acc p => dictInsert acc p.1 p.2) [(key, value)]

/-! ### JSON values -/

mutual
/-- JSON values of the restricted value set the spec names for metadata
records: strings, numbers (integers; see the header note), booleans, null,
sequences and mappings.  Mappings are insertion-ordered, as Python dicts. -/
inductive JVal where
  | jstr : String → JVal
  | jint : Int → JVal
  | jbool : Bool → JVal
  | jnull : JVal
  | jarr : JList → JVal
  | jobj : JObj → JVal
deriving DecidableEq
/-- Sequence of JSON values. -/
inductive JList where
  | nil : JList
  | cons : JVal → JList → JList
deriving DecidableEq
/-- Ordered mapping of string keys to JSON values. -/
inductive JObj where
  | nil : JObj
  | cons : String → JVal → JObj → JObj
deriving DecidableEq
end

/-- Key membership in a JSON object. -/
def objHasKey : JObj → String → Bool
  | .nil, _ => false
  | .cons k0 _ t, k => k0 = k || objHasKey t k

/-- Uniqueness of the keys of a JSON object, the invariant every Python dict
satisfies by construction. -/
def objNodupKeys : JObj → Bool
  | .nil => true
  | .cons k _ t => !objHasKey t k && objNodupKeys t

/-- Model of a Python dict store on a JSON object (same semantics as
`dictInsert`). -/
def objInsert : JObj → String → JVal → JObj
  | .nil, k, v => .cons k v .nil
  | .cons k0 v0 t, k, v =>
    if k0 = k then .cons k0 v t else .cons k0 v0 (objInsert t k v)

/-- Auxiliary fold for `objDict`. -/
def objDictAux : JObj → JObj → JObj
  | acc, .nil => acc
  | acc, .cons k v t => objDictAux (objInsert acc k v) t

/-- Model of Python `dict(pairs)`: insert the pairs into an empty dict in
order, later pairs overwriting earlier ones, as CPython's `JSONObject` hook
does with the member list it collects. -/
def objDict (o : JObj) : JObj := objDictAux .nil o

/-- Concatenation of two JSON objects (entry lists). -/
def objAppend : JObj → JObj → JObj
  | .nil, o => o
  | .cons k v t, o => .cons k v (objAppend t o)

mutual
/-- Validity of a metadata record: every mapping nested anywhere inside it has
unique keys, which holds for every record a Python program can build out of
dicts. -/
def validV : JVal → Bool
  | .jstr _ => true
  | .jint _ => true
  | .jbool _ => true
  | .jnull => true
  | .jarr l => validL l
  | .jobj o => objNodupKeys o && validO o
/-- Validity of every element of a sequence. -/
def validL : JList → Bool
  | .nil => true
  | .cons v t => validV v && validL t
/-- Validity of every value of a mapping. -/
def validO : JObj → Bool
  | .nil => true
  | .cons _ v t => validV v && validO t
end

mutual
/-- Fuel measure for the scanner: an upper bound on the recursion depth the
fueled parser needs on the encoding of a value (proved below to be at most the
encoding's length). -/
def sizeV : JVal → Nat
  | .jstr s => s.length + 2
  | .jint _ => 1
  | .jbool _ => 1
  | .jnull => 1
  | .jarr l => 1 + sizeL l
  | .jobj o => 1 + sizeO o
/-- Fuel measure for sequence tails. -/
def sizeL : JList → Nat
  | .nil => 0
  | .cons v t => 1 + sizeV v + sizeL t
/-- Fuel measure for mapping tails. -/
def sizeO : JObj → Nat
  | .nil => 0
  | .cons k v t => 1 + (k.length + 1) + sizeV v + sizeO t
end

/-! ### Model of CPython `json.dumps` with default arguments

With `ensure_ascii=True` (the default, which source line 43 relies on) the
encoder output is pure ASCII: `"` and `\` get a backslash escape, the control
characters 8, 9, 10, 12, 13 get their short escapes, every other character
outside `0x20..0x7E` becomes a lowercase `\uXXXX` escape, and characters above
`0xFFFF` become a UTF-16 surrogate pair of two such escapes.  With
`indent=None` (the default) the item separator is `", "` and the key separator
is `": "`. -/

/-- Lowercase hexadecimal digit, as CPython's `\uXXXX` escapes write it. -/
def hexDigitChar (n : Nat) : Char :=
  if n < 10 then Char.ofNat (48 + n) else Char.ofNat (87 + n)

/-- Four-digit lowercase hexadecimal rendering of a number below `0x10000`. -/
def hex4Chars (n : Nat) : List Char :=
  [hexDigitChar (n / 4096 % 16), hexDigitChar (n / 256 % 16),
   hexDigitChar (n / 16 % 16), hexDigitChar (n % 16)]

/-- Escape of one character of a JSON string, following CPython's
`py_encode_basestring_ascii`. -/
def escapeChar (c : Char) : List Char :=
  if c = '"' then ['\\', '"']
  else if c = '\\' then ['\\', '\\']
  else if c.toNat = 8 then ['\\', 'b']
  else if c.toNat = 9 then ['\\', 't']
  else if c.toNat = 10 then ['\\', 'n']
  else if c.toNat = 12 then ['\\', 'f']
  else if c.toNat = 13 then ['\\', 'r']
  else if c.toNat < 32 ∨ 127 ≤ c.toNat then
    if c.toNat < 65536 then '\\' :: 'u' :: hex4Chars c.toNat
    else '\\' :: 'u' :: hex4Chars (55296 + (c.toNat - 65536) / 1024)
         ++ '\\' :: 'u' :: hex4Chars (56320 + (c.toNat - 65536) % 1024)
  else [c]

/-- ASCII-escaped JSON string literal, quotes included. -/
def encStr (s : String) : List Char :=
  '"' :: (s.data.map escapeChar).flatten ++ ['"']

/-- Decimal digits of a natural number, least significant first; the first
argument is fuel (any fuel of at least `n` produces all digits). -/
def natDigitsRev : Nat → Nat → List Nat
  | 0, _ => []
  | _ + 1, 0 => []
  | fuel + 1, n => n % 10 :: natDigitsRev fuel (n / 10)

/-- Decimal rendering of a natural number, as Python `str` renders it. -/
def natChars (n : Nat) : List Char :=
  if n = 0 then ['0']
  else ((natDigitsRev n n).reverse).map (fun d => Char.ofNat (48 + d))

/-- Decimal rendering of an integer, as Python `str` renders it (no `-0`). -/
def intChars : Int → List Char
  | .ofNat n => natChars n
  | .negSucc n => '-' :: natChars (n + 1)

mutual
/-- Model of CPython `json.dumps` with default arguments, producing the
character list of the returned `str` (pure ASCII; see the section header). -/
def dumpChars : JVal → List Char
  | .jstr s => encStr s
  | .jint i => intChars i
  | .jbool true => ['t', 'r', 'u', 'e']
  | .jbool false => ['f', 'a', 'l', 's', 'e']
  | .jnull => ['n', 'u', 'l', 'l']
  | .jarr l => '[' :: dumpList l ++ [']']
  | .jobj o => '\x7b' :: dumpObj o ++ ['\x7d']
/-- Encoding of the elements of a sequence, `", "`-separated. -/
def dumpList : JList → List Char
  | .nil => []
  | .cons v t => dumpChars v ++ dumpListSep t
/-- Encoding of the remaining elements of a sequence, each preceded by the
item separator `", "`. -/
def dumpListSep : JList → List Char
  | .nil => []
  | .cons v t => ',' :: ' ' :: (dumpChars v ++ dumpListSep t)
/-- Encoding of the members of a mapping, `", "`-separated, each a key literal
followed by the key separator `": "` and the value. -/
def dumpObj : JObj → List Char
  | .nil => []
  | .cons k v t => encStr k ++ ':' :: ' ' :: (dumpChars v ++ dumpObjSep t)
/-- Encoding of the remaining members of a mapping, each preceded by `", "`. -/
def dumpObjSep : JObj → List Char
  | .nil => []
  | .cons k v t => ',' :: ' ' :: (encStr k ++ ':' :: ' ' :: (dumpChars v ++ dumpObjSep t))
end

/-! ### UTF-8 -/

/-- UTF-8 encoding of one Unicode scalar value, as Python `str.encode()`
produces it. -/
def utf8Char (c : Char) : Bytes :=
  let n := c.toNat
  if n < 128 then [n]
  else if n < 2048 then [192 + n / 64, 128 + n % 64]
  else if n < 65536 then [224 + n / 4096, 128 + n / 64 % 64, 128 + n % 64]
  else [240 + n / 262144, 128 + n / 4096 % 64, 128 + n / 64 % 64, 128 + n % 64]

/-- UTF-8 encoding of a character list (Python `str.encode()`). -/
def utf8 (s : List Char) : Bytes := (s.map utf8Char).flatten

/-- UTF-8 encoding of a string literal. -/
def utf8S (s : String) : Bytes := utf8 s.data

/-- Strict UTF-8 decoding (Python `bytes.decode()`), fueled by the length of
the input; rejects truncated sequences, bad continuation bytes, overlong
forms, surrogates and values above `0x10FFFF`, as CPython's strict decoder
does. -/
def utf8Decode : Nat → Bytes → Option (List Char)
  | 0, _ => none
  | _ + 1, [] => some []
  | fuel + 1, b :: bs =>
    if b < 128 then (utf8Decode fuel bs).map (fun t => Char.ofNat b :: t)
    else if b < 192 then none
    else if b < 224 then
      match bs with
      | b2 :: bs2 =>
        if 128 ≤ b2 ∧ b2 < 192 then
          let n := (b - 192) * 64 + (b2 - 128)
          if 128 ≤ n then (utf8Decode fuel bs2).map (fun t => Char.ofNat n :: t)
          else none
        else none
      | _ => none
    else if b < 240 then
      match bs with
      | b2 :: b3 :: bs3 =>
        if (128 ≤ b2 ∧ b2 < 192) ∧ (128 ≤ b3 ∧ b3 < 192) then
          let n := (b - 224) * 4096 + (b2 - 128) * 64 + (b3 - 128)
          if 2048 ≤ n ∧ ¬(55296 ≤ n ∧ n ≤ 57343) then
            (utf8Decode fuel bs3).map (fun t => Char.ofNat n :: t)
          else none
        else none
      | _ => none
    else if b < 245 then
      match bs with
      | b2 :: b3 :: b4 :: bs4 =>
        if (128 ≤ b2 ∧ b2 < 192) ∧ (128 ≤ b3 ∧ b3 < 192) ∧ (128 ≤ b4 ∧ b4 < 192) then
          let n := (b - 240) * 262144 + (b2 - 128) * 4096 + (b3 - 128) * 64 + (b4 - 128)
          if 65536 ≤ n ∧ n ≤ 1114111 then
            (utf8Decode fuel bs4).map (fun t => Char.ofNat n :: t)
          else none
        else none
      | _ => none
    else none

/-! ### Model of CPython `json.loads`

The scanner follows CPython's `json/scanner.py` (`py_make_scanner`) and
`json/decoder.py` (`py_scanstring`, `JSONObject`, `JSONArray`): whitespace is
` \t\n\r`, strings accept the eight single-character escapes and `\uXXXX`
(either hex case, UTF-16 surrogate pairs recombined), raw control characters
in strings are rejected (`strict=True`), object member lists are collected in
order and then turned into a dict.  Deviations, both outside the value set the
script can store: a `\uXXXX` escape denoting a lone surrogate is rejected
(CPython would build a `str` containing a surrogate code unit, which is not a
Unicode scalar value), and number matches continuing with a fraction or
exponent, as well as the `NaN`/`Infinity` constants, are rejected rather than
turned into Python floats. -/

/-- JSON whitespace, the character class of CPython's `WHITESPACE` regex
(space, tab, newline, carriage return). -/
def jsonWs (c : Char) : Bool :=
  c.toNat = 32 || c.toNat = 9 || c.toNat = 10 || c.toNat = 13

/-- Longest whitespace prefix removal, the `WHITESPACE.match(...).end()` step
of the scanner. -/
def dropWs : List Char → List Char
  | [] => []
  | c :: t => if jsonWs c then dropWs t else c :: t

/-- Value of one hexadecimal digit, either case. -/
def hexVal? (c : Char) : Option Nat :=
  if 48 ≤ c.toNat ∧ c.toNat ≤ 57 then some (c.toNat - 48)
  else if 97 ≤ c.toNat ∧ c.toNat ≤ 102 then some (c.toNat - 87)
  else if 65 ≤ c.toNat ∧ c.toNat ≤ 70 then some (c.toNat - 55)
  else none

/-- Value of four hexadecimal digits (the `int(s[end:end + 4], 16)` step of
`py_scanstring`). -/
def hex4? : List Char → Option (Nat × List Char)
  | a :: b :: c :: d :: rest =>
    match hexVal? a, hexVal? b, hexVal? c, hexVal? d with
    | some va, some vb, some vc, some vd =>
      some (((va * 16 + vb) * 16 + vc) * 16 + vd, rest)
    | _, _, _, _ => none
  | _ => none

/-- Decode of one backslash escape (the part after the backslash):
`py_scanstring`'s `BACKSLASH` table plus the `\uXXXX` branch with UTF-16
surrogate-pair recombination.  A lone surrogate is rejected (see the section
header). -/
def parseEscape : List Char → Option (Char × List Char)
  | '"' :: r => some ('"', r)
  | '\\' :: r => some ('\\', r)
  | '/' :: r => some ('/', r)
  | 'b' :: r => some (Char.ofNat 8, r)
  | 'f' :: r => some (Char.ofNat 12, r)
  | 'n' :: r => some (Char.ofNat 10, r)
  | 'r' :: r => some (Char.ofNat 13, r)
  | 't' :: r => some (Char.ofNat 9, r)
  | 'u' :: r =>
    match hex4? r with
    | none => none
    | some (n, r2) =>
      if n < 55296 ∨ 57343 < n then some (Char.ofNat n, r2)
      else if n ≤ 56319 then
        match r2 with
        | '\\' :: 'u' :: r3 =>
          match hex4? r3 with
          | none => none
          | some (m, r4) =>
            if 56320 ≤ m ∧ m ≤ 57343 then
              some (Char.ofNat (65536 + (n - 55296) * 1024 + (m - 56320)), r4)
            else none
        | _ => none
      else none
  | _ => none

/-- Scan of a string body after the opening quote, following `py_scanstring`
with `strict=True`: a raw control character below `0x20` is an error.  The
first argument is fuel; any fuel exceeding the number of decoded characters
suffices. -/
def scanString : Nat → List Char → Option (List Char × List Char)
  | 0, _ => none
  | _ + 1, [] => none
  | fuel + 1, c :: cs =>
    if c = '"' then some ([], cs)
    else if c = '\\' then
      match parseEscape cs with
      | none => none
      | some (ch, cs2) =>
        match scanString fuel cs2 with
        | none => none
        | some (s, rest) => some (ch :: s, rest)
    else if c.toNat < 32 then none
    else
      match scanString fuel cs with
      | none => none
      | some (s, rest) => some (c :: s, rest)

/-- ASCII decimal digit test, the digit class of CPython's `NUMBER_RE` on the
inputs this model covers. -/
def isDigitCh (c : Char) : Bool := 48 ≤ c.toNat ∧ c.toNat ≤ 57

/-- Value of an ASCII digit character. -/
def digitVal (c : Char) : Nat := c.toNat - 48

/-- Maximal run of digits folded into an accumulator, as the `\d*` tail of
`NUMBER_RE` matched by `int()`. -/
def takeDigitsAcc : Nat → List Char → Nat × List Char
  | acc, [] => (acc, [])
  | acc, c :: t =>
    if isDigitCh c then takeDigitsAcc (acc * 10 + digitVal c) t else (acc, c :: t)

/-- Test whether a number match would continue with a fraction or exponent
(which would make it a Python float, outside this model). -/
def headFrac : List Char → Bool
  | [] => false
  | c :: _ => c = '.' || c = 'e' || c = 'E'

/-- Model of the integral fragment of CPython json's `NUMBER_RE`,
`-?(0|[1-9]\d*)`: a single `0`, or a nonzero digit followed by digits.  A
match continuing with a fraction or exponent is rejected (see the section
header). -/
def parseUIntTok : List Char → Option (Nat × List Char)
  | [] => none
  | c :: r =>
    if c = '0' then (if headFrac r then none else some (0, r))
    else if isDigitCh c then
      let p := takeDigitsAcc (digitVal c) r
      if headFrac p.2 then none else some p
    else none

/-- Signed integer token: optional minus sign before the digits. -/
def parseIntTok : List Char → Option (Int × List Char)
  | [] => none
  | c :: r =>
    if c = '-' then (parseUIntTok r).map (fun p => (-(p.1 : Int), p.2))
    else (parseUIntTok (c :: r)).map (fun p => ((p.1 : Int), p.2))

mutual
/-- Model of the scanner's value dispatch (`_scan_once`): skip whitespace,
then dispatch on the first character to a string, object, array, constant or
number scan.  The first argument is fuel; `sizeV` of the scanned value bounds
the fuel needed. -/
def parseVal : Nat → List Char → Option (JVal × List Char)
  | 0, _ => none
  | fuel + 1, cs =>
    match dropWs cs with
    | [] => none
    | c :: r =>
      if c = '"' then
        match scanString fuel r with
        | none => none
        | some (s, rest) => some (.jstr (String.mk s), rest)
      else if c = '[' then
        match dropWs r with
        | [] => none
        | c2 :: r2 =>
          if c2 = ']' then some (.jarr .nil, r2)
          else
            match parseElems fuel (c2 :: r2) with
            | none => none
            | some (l, rest) => some (.jarr l, rest)
      else if c = '\x7b' then
        match dropWs r with
        | [] => none
        | c2 :: r2 =>
          if c2 = '\x7d' then some (.jobj .nil, r2)
          else
            match parseMembers fuel (c2 :: r2) with
            | none => none
            | some (o, rest) => some (.jobj (objDict o), rest)
      else if c = 'n' then
        match r with
        | 'u' :: 'l' :: 'l' :: rest => some (.jnull, rest)
        | _ => none
      else if c = 't' then
        match r with
        | 'r' :: 'u' :: 'e' :: rest => some (.jbool true, rest)
        | _ => none
      else if c = 'f' then
        match r with
        | 'a' :: 'l' :: 's' :: 'e' :: rest => some (.jbool false, rest)
        | _ => none
      else if c = '-' || isDigitCh c then
        match parseIntTok (c :: r) with
        | none => none
        | some (i, rest) => some (.jint i, rest)
      else none
/-- Model of `JSONArray`'s element loop: a value, then after whitespace either
a comma (and, after whitespace, further elements) or the closing bracket. -/
def parseElems : Nat → List Char → Option (JList × List Char)
  | 0, _ => none
  | fuel + 1, cs =>
    match parseVal fuel cs with
    | none => none
    | some (v, r) =>
      match dropWs r with
      | ',' :: r2 =>
        match parseElems fuel (dropWs r2) with
        | none => none
        | some (l, rest) => some (.cons v l, rest)
      | ']' :: rest => some (.cons v .nil, rest)
      | _ => none
/-- Model of `JSONObject`'s member loop: a quoted key, whitespace, a colon,
whitespace, a value, then after whitespace either a comma (and further
members, after whitespace) or the closing brace.  Members are collected in
source order; the caller turns them into a dict. -/
def parseMembers : Nat → List Char → Option (JObj × List Char)
  | 0, _ => none
  | fuel + 1, cs =>
    match cs with
    | '"' :: r =>
      match scanString fuel r with
      | none => none
      | some (k, r1) =>
        match dropWs r1 with
        | ':' :: r2 =>
          match parseVal fuel (dropWs r2) with
          | none => none
          | some (v, r3) =>
            match dropWs r3 with
            | ',' :: r4 =>
              match dropWs r4 with
              | '"' :: r5 =>
                match parseMembers fuel ('"' :: r5) with
                | none => none
                | some (o, rest) => some (.cons (String.mk k) v o, rest)
              | _ => none
            | '\x7d' :: rest => some (.cons (String.mk k) v .nil, rest)
            | _ => none
        | _ => none
    | _ => none
end

/-- Model of `json.loads` on a `str`: scan one value with fuel the input
length plus one, then require only whitespace to remain (`Extra data`
otherwise). -/
def loads (s : List Char) : Option JVal :=
  match parseVal (s.length + 1) s with
  | none => none
  | some (v, rest) => if dropWs rest = [] then some v else none

/-- Model of `json.loads` on a `bytes` object (source line 71): CPython first
decodes the bytes as UTF-8, then scans the resulting `str`. -/
def loadsBytes (bs : Bytes) : Option JVal :=
  match utf8Decode (bs.length + 1) bs with
  | none => none
  | some s => loads s

/-! ### Model of the pandas / pyarrow operations the script calls

The pandas and pyarrow code is not part of this repository; these definitions
are modelled from the spec (sections 2, 3, 4.3 and 8). -/

/-- Modelled from the spec: a tabular dataset (pandas DataFrame) — an ordered
sequence of named columns plus a row index.  Column cells are modelled as
rationals; the example's cells are the decimal literals of source lines 11-12,
which rationals represent exactly. -/
structure DataFrame where
  cols : List (String × List ℚ)
  index : List String
deriving DecidableEq

/-- Modelled from the spec: a columnar (Arrow) table — the column data plus
the schema metadata mapping from byte-string keys to byte-string values. -/
structure Table where
  cols : List (String × List ℚ)
  index : List String
  schema_metadata : List (Bytes × Bytes)
deriving DecidableEq

/-- Reserved key `b"pandas"` under which the tabular-dataset encoding is
stored when converting from a DataFrame. -/
def pandasKey : Bytes := utf8S "pandas"

/-- Modelled from the spec: the library-reserved entry's payload describing
the tabular-dataset encoding.  The spec fixes only its presence under
`b"pandas"`, so the payload is modelled as the UTF-8 JSON dump of the column
names. -/
def pandasEncoding (df : DataFrame) : Bytes :=
  utf8 (dumpChars (.jarr (df.cols.foldr (fun p l => .cons (.jstr p.1) l) .nil)))

/-- Modelled from the spec: `pa.Table.from_pandas` (source line 31) — the same
columns and index, with a schema metadata mapping holding the library-reserved
`b"pandas"` entry. -/
def Table.from_pandas (df : DataFrame) : Table :=
  ⟨df.cols, df.index, [(pandasKey, pandasEncoding df)]⟩

/-- Modelled from the spec: `Table.to_pandas` (source line 65) — the original
tabular dataset extracted back from the table. -/
def Table.to_pandas (t : Table) : DataFrame :=
  ⟨t.cols, t.index⟩

/-- Modelled from the spec: `Table.replace_schema_metadata` (source line 56) —
an immutable replace returning a new table value sharing the column data, with
the given schema metadata. -/
def Table.replace_schema_metadata (t : Table) (m : List (Bytes × Bytes)) : Table :=
  ⟨t.cols, t.index, m⟩

/-- Compression methods `pq.write_table` accepts. -/
inductive Compression where
  | NONE | SNAPPY | GZIP | BROTLI | LZ4 | ZSTD
deriving DecidableEq

/-- Modelled from the spec: the on-disk Parquet file — the serialized table
(columns plus schema metadata preserved bit-for-bit) and the compression
method chosen at write time. -/
structure ParquetFile where
  compression : Compression
  cols : List (String × List ℚ)
  index : List String
  schema_metadata : List (Bytes × Bytes)
deriving DecidableEq

/-- Modelled from the spec: `pq.write_table` (source line 59) — serializes the
table to a file with the given compression, preserving the schema metadata
bit-for-bit. -/
def write_table (t : Table) (c : Compression) : ParquetFile :=
  ⟨c, t.cols, t.index, t.schema_metadata⟩

/-- Modelled from the spec: `pq.read_table` (source line 62) — deserializes
the file back into an equivalent table. -/
def read_table (f : ParquetFile) : Table :=
  ⟨f.cols, f.index, f.schema_metadata⟩

/-! ### The script's pipeline, line by line -/

/-- Example data of source lines 10-19. -/
def df : DataFrame :=
  ⟨[("temp", [12.1, 11, 13, 10, 10]), ("rain", [9.2, 10.0, 2.2, 0.2, 0.4])],
   ["2020-10-12", "2020-10-13", "2020-10-14", "2020-10-15", "2020-10-16"]⟩

/-- Namespaced key of source line 22. -/
def custom_meta_key : String := "weatherapp.iot"

/-- Custom metadata record of source lines 23-27. -/
def custom_meta_content : JVal :=
  .jobj (.cons "user" (.jstr "Wáng Fāng")
    (.cons "coord" (.jstr "55.9533° N, 3.1883° W")
      (.cons "time" (.jstr "2020-10-17T03:59:59+0000") .nil)))

/-- Arrow table of source line 31. -/
def table : Table := Table.from_pandas df

/-- Decoded `b"pandas"` entry of source line 37. -/
def pandas_meta : Option JVal :=
  (dictGet table.schema_metadata pandasKey).bind loadsBytes

/-- Encoded custom metadata of source line 43. -/
def custom_meta_json : List Char := dumpChars custom_meta_content

/-- Existing schema metadata of source line 48. -/
def existing_meta : List (Bytes × Bytes) := table.schema_metadata

/-- Merged metadata mapping of source lines 49-52. -/
def combined_meta : List (Bytes × Bytes) :=
  pyDictLit (utf8S custom_meta_key) (utf8 custom_meta_json) existing_meta

/-- New table of source line 56 (the source reuses the name `table`). -/
def table_with_meta : Table := table.replace_schema_metadata combined_meta

/-- File written on source line 59. -/
def example_parquet : ParquetFile := write_table table_with_meta Compression.GZIP

/-- Table read back on source line 62. -/
def restored_table : Table := read_table example_parquet

/-- DataFrame extracted back on source line 65. -/
def restored_df : DataFrame := restored_table.to_pandas

/-- Metadata lookup of source line 68 (`none` models the `KeyError` an absent
key would raise). -/
def restored_meta_json : Option Bytes :=
  dictGet restored_table.schema_metadata (utf8S custom_meta_key)

/-- Decoded metadata record of source line 71. -/
def restored_meta : Option JVal := restored_meta_json.bind loadsBytes

/-! ### Auxiliary definitions used by the statements and proofs below -/

/-- Value of a little-endian digit list. -/
def valLE : List Nat → Nat
  | [] => 0
  | d :: t => d + 10 * valLE t

/-- Input positions at which a maximal integer token may end: end of input or
a character that neither extends the digit run nor starts a fraction or
exponent. -/
def numStop : List Char → Bool
  | [] => true
  | c :: _ => !(isDigitCh c || c = '.' || c = 'e' || c = 'E')

mutual
/-- Presence of non-ASCII text anywhere in a record (in a string value or in a
mapping key). -/
def hasNonAsciiV : JVal → Bool
  | .jstr s => s.data.any (fun c => 128 ≤ c.toNat)
  | .jint _ => false
  | .jbool _ => false
  | .jnull => false
  | .jarr l => hasNonAsciiL l
  | .jobj o => hasNonAsciiO o
/-- Presence of non-ASCII text in a sequence. -/
def hasNonAsciiL : JList → Bool
  | .nil => false
  | .cons v t => hasNonAsciiV v || hasNonAsciiL t
/-- Presence of non-ASCII text in a mapping. -/
def hasNonAsciiO : JObj → Bool
  | .nil => false
  | .cons k v t => k.data.any (fun c => 128 ≤ c.toNat) || hasNonAsciiV v || hasNonAsciiO t
end

/-! ### Properties of the Python dict model -/

section DictLemmas

variable {α β : Type} [DecidableEq α]

/-- Lookup after a store: the stored key now maps to the stored value, every
other key is untouched. -/
theorem dictGet_dictInsert (k k2 : α) (v : β) :
    ∀ m : List (α × β),
      dictGet (dictInsert m k v) k2 = if k = k2 then some v else dictGet m k2
  | [] => by by_cases h : k = k2 <;> simp [dictInsert, dictGet, h]
  | (k0, v0) :: t => by
    by_cases h0 : k0 = k
    · by_cases h2 : k0 = k2
      · have hk : k = k2 := h0 ▸ h2
        simp [dictInsert, dictGet, h0, h2, hk]
      · have hk : ¬(k = k2) := fun he => h2 (h0.trans he)
        simp [dictInsert, dictGet, h0, h2, hk]
    · by_cases h2 : k0 = k2
      · have hk : ¬(k = k2) := fun he => h0 (h2.trans he.symm)
        have hk2 : ¬(k2 = k) := fun he => hk he.symm
        simp [dictInsert, dictGet, h0, h2, hk, hk2]
      · simp [dictInsert, dictGet, h0, h2, dictGet_dictInsert k k2 v t]

/-- Storing a fresh key appends the entry. -/
theorem dictInsert_notMem (m : List (α × β)) (k : α) (v : β)
    (h : k ∉ m.map Prod.fst) : dictInsert m k v = m ++ [(k, v)] := by
  induction m with
  | nil => simp [dictInsert]
  | cons p t ih =>
    obtain ⟨k0, v0⟩ := p
    simp only [List.map_cons, List.mem_cons] at h
    push_neg at h
    have h0 : k0 ≠ k := fun he => h.1 he.symm
    simp [dictInsert, h0, ih h.2]

/-- Inserting the entries of a mapping (unique keys, all fresh for the
accumulator) appends the mapping. -/
theorem dict_foldl_append (M : List (α × β)) : ∀ acc : List (α × β),
    (M.map Prod.fst).Nodup →
    (∀ k, k ∈ M.map Prod.fst → k ∉ acc.map Prod.fst) →
    M.foldl (fun acc p => dictInsert acc p.1 p.2) acc = acc ++ M := by
  induction M with
  | nil => simp
  | cons p t ih =>
    intro acc hnd hdisj
    obtain ⟨k1, v1⟩ := p
    simp only [List.map_cons, List.nodup_cons] at hnd
    have h1 : k1 ∉ acc.map Prod.fst := hdisj k1 (by simp)
    have hstep : dictInsert acc k1 v1 = acc ++ [(k1, v1)] := dictInsert_notMem acc k1 v1 h1
    simp only [List.foldl_cons, hstep]
    rw [ih (acc ++ [(k1, v1)]) hnd.2]
    · simp
    · intro k hk
      have hka : k ∉ acc.map Prod.fst := hdisj k (by simp [hk])
      have hk1 : k ≠ k1 := fun he => hnd.1 (he ▸ hk)
      simp [hka, hk1]

/-- Merge with a fresh namespaced key: the new entry first, then the existing
mapping unchanged. -/
theorem pyDictLit_notMem (M : List (α × β)) (k : α) (v : β)
    (hnd : (M.map Prod.fst).Nodup) (h : k ∉ M.map Prod.fst) :
    pyDictLit k v M = (k, v) :: M := by
  unfold pyDictLit
  rw [dict_foldl_append M [(k, v)] hnd]
  · simp
  · intro k2 hk2
    have : k2 ≠ k := fun he => h (he ▸ hk2)
    simp [this]

/-- Lookup in the folded-in mapping: keys of the mapping resolve there, all
others in the accumulator. -/
theorem dictGet_dict_foldl (M : List (α × β)) : ∀ (acc : List (α × β)) (key : α),
    (M.map Prod.fst).Nodup →
    dictGet (M.foldl (fun acc p => dictInsert acc p.1 p.2) acc) key =
      if key ∈ M.map Prod.fst then dictGet M key else dictGet acc key := by
  induction M with
  | nil => simp
  | cons p t ih =>
    intro acc key hnd
    obtain ⟨k1, v1⟩ := p
    simp only [List.map_cons, List.nodup_cons] at hnd
    simp only [List.foldl_cons]
    rw [ih (dictInsert acc k1 v1) key hnd.2]
    simp only [List.map_cons, List.mem_cons, dictGet]
    by_cases h1 : k1 = key
    · subst h1
      rw [if_neg hnd.1, dictGet_dictInsert, if_pos rfl]
      simp
    · have hne2 : ¬(key = k1) := fun he => h1 he.symm
      by_cases hmem : key ∈ t.map Prod.fst
      · simp [hmem, h1]
      · rw [if_neg hmem, dictGet_dictInsert, if_neg h1]
        simp [hne2, hmem]

/-- Lookup of a key absent from a mapping fails. -/
theorem dictGet_eq_none (m : List (α × β)) (k : α)
    (h : ∀ p ∈ m, p.1 ≠ k) : dictGet m k = none := by
  induction m with
  | nil => rfl
  | cons p t ih =>
    obtain ⟨k0, v0⟩ := p
    have h0 : k0 ≠ k := h (k0, v0) (by simp)
    simp only [dictGet, if_neg h0]
    exact ih (fun q hq => h q (by simp [hq]))

end DictLemmas

set_option maxRecDepth 10000

/-- Claim C1 (counterexample): when the namespaced key already occurs in the
existing mapping, the merged mapping does not contain the new entry `k → v`:
with `M = [k → b1]`, `v = b2`, the merge keeps `k → b1`. -/
theorem c1_counterexample :
    ¬ (([0], [2]) ∈ pyDictLit ([0] : Bytes) ([2] : Bytes) [([0], [1])]) := by
  decide

/-- Claim C1 (amended): for every existing schema metadata mapping `M` (unique
keys, as every Python dict has), namespaced key `k` and encoded value `v`,
provided `k` is not already a key of `M` (which the namespacing convention is
for), the merge returns a mapping that contains the entry `k → v` and every
entry of `M` whose key is not `k`. -/
theorem c1_merge_contains (M : List (Bytes × Bytes)) (k v : Bytes)
    (hnd : (M.map Prod.fst).Nodup) (hk : k ∉ M.map Prod.fst) :
    dictGet (pyDictLit k v M) k = some v ∧
    ∀ p ∈ M, p.1 ≠ k → p ∈ pyDictLit k v M := by
  rw [pyDictLit_notMem M k v hnd hk]
  constructor
  · simp [dictGet]
  · intro p hp _
    exact List.mem_cons_of_mem _ hp

/-- Claim C1 (witness): the amended statement applied to the script's merge of
source lines 49-52. -/
theorem c1_merge_contains_witness :
    dictGet (pyDictLit (utf8S custom_meta_key) (utf8 custom_meta_json) existing_meta)
      (utf8S custom_meta_key) = some (utf8 custom_meta_json) ∧
    ∀ p ∈ existing_meta, p.1 ≠ utf8S custom_meta_key →
      p ∈ pyDictLit (utf8S custom_meta_key) (utf8 custom_meta_json) existing_meta :=
  c1_merge_contains existing_meta (utf8S custom_meta_key) (utf8 custom_meta_json)
    (by decide) (by decide)

/-- Claim C9: the merge resolves a key collision in favour of the existing
mapping: if `k` is already a key of `M`, the merged mapping maps `k` to `M`'s
value, and hence not to the new value when the two differ. -/
theorem c9_existing_wins (M : List (Bytes × Bytes)) (k v : Bytes)
    (hnd : (M.map Prod.fst).Nodup) (hk : k ∈ M.map Prod.fst) :
    dictGet (pyDictLit k v M) k = dictGet M k ∧
    (dictGet M k ≠ some v → dictGet (pyDictLit k v M) k ≠ some v) := by
  have h := dictGet_dict_foldl M [(k, v)] k hnd
  rw [if_pos hk] at h
  exact ⟨h, fun hne => h ▸ hne⟩

/-- Claim C9 (witness): collision on the concrete mapping `[k → b1]`. -/
theorem c9_existing_wins_witness :
    dictGet (pyDictLit ([0] : Bytes) ([2] : Bytes) [([0], [1])]) [0] =
      dictGet [(([0] : Bytes), ([1] : Bytes))] [0] ∧
    (dictGet [(([0] : Bytes), ([1] : Bytes))] [0] ≠ some [2] →
      dictGet (pyDictLit ([0] : Bytes) ([2] : Bytes) [([0], [1])]) [0] ≠ some [2]) :=
  c9_existing_wins [([0], [1])] [0] [2] (by decide) (by decide)

/-- Claim C10: the merged mapping is ordered, with the namespaced entry first
and then the entries of the existing mapping in their original order (for a
fresh namespaced key, which the namespacing convention ensures; keys of the
existing mapping are unique, as in every Python dict). -/
theorem c10_merge_order (M : List (Bytes × Bytes)) (k v : Bytes)
    (hnd : (M.map Prod.fst).Nodup) (hk : k ∉ M.map Prod.fst) :
    pyDictLit k v M = (k, v) :: M :=
  pyDictLit_notMem M k v hnd hk

/-- Claim C10 (witness): the script's merged mapping is the namespaced entry
followed by the existing mapping. -/
theorem c10_merge_order_witness :
    pyDictLit (utf8S custom_meta_key) (utf8 custom_meta_json) existing_meta =
      (utf8S custom_meta_key, utf8 custom_meta_json) :: existing_meta :=
  c10_merge_order existing_meta (utf8S custom_meta_key) (utf8 custom_meta_json)
    (by decide) (by decide)

/-! ### Claims about the table operations and the file round trip -/

/-- Claim C4: replacing a table's schema metadata returns a new table value
with the same column data (and index) and the given metadata; the original
table value is untouched — in particular, whenever the metadata actually
changes, the result is a different table value than the original. -/
theorem c4_replace_schema_metadata (t : Table) (m : List (Bytes × Bytes)) :
    (t.replace_schema_metadata m).cols = t.cols ∧
    (t.replace_schema_metadata m).index = t.index ∧
    (t.replace_schema_metadata m).schema_metadata = m ∧
    (t.schema_metadata ≠ m → t.replace_schema_metadata m ≠ t) := by
  refine ⟨rfl, rfl, rfl, fun hne he => hne ?_⟩
  calc t.schema_metadata = (t.replace_schema_metadata m).schema_metadata := by rw [he]
    _ = m := rfl

/-- Claim C4 (witness): the script's replace of source line 56. -/
theorem c4_replace_schema_metadata_witness :
    (table.replace_schema_metadata combined_meta).cols = table.cols ∧
    table.replace_schema_metadata combined_meta ≠ table :=
  ⟨(c4_replace_schema_metadata table combined_meta).1,
   (c4_replace_schema_metadata table combined_meta).2.2.2 (by decide)⟩

/-- Claim C7: the table recovered by write-then-read does not depend on the
compression method chosen at write time. -/
theorem c7_compression_independent (t : Table) (c1 c2 : Compression) :
    read_table (write_table t c1) = read_table (write_table t c2) := rfl

/-- Claim C5: looking up a key that was never written into a table's schema
metadata fails with a lookup error (modelled by `none`, the `KeyError` of the
source's line 68 subscript) rather than producing some default value. -/
theorem c5_absent_key_fails (t : Table) (k : Bytes)
    (h : ∀ p ∈ t.schema_metadata, p.1 ≠ k) :
    dictGet t.schema_metadata k = none :=
  dictGet_eq_none t.schema_metadata k h

/-- Claim C5 (witness): the restored table of the script holds no entry under
`b"nosuchkey"`, so that lookup raises. -/
theorem c5_absent_key_fails_witness :
    dictGet restored_table.schema_metadata (utf8S "nosuchkey") = none :=
  c5_absent_key_fails restored_table (utf8S "nosuchkey") (by decide)

/-- Claim C8: converting a tabular dataset always yields schema metadata with
unique keys that contains the library-reserved `b"pandas"` entry, so looking
that key up right after the conversion succeeds. -/
theorem c8_pandas_key_present (d : DataFrame) :
    ((Table.from_pandas d).schema_metadata.map Prod.fst).Nodup ∧
    dictGet (Table.from_pandas d).schema_metadata pandasKey = some (pandasEncoding d) := by
  constructor
  · simp [Table.from_pandas]
  · simp [Table.from_pandas, dictGet]

/-- Claim C3: write-then-read reproduces the table — the schema metadata
bit-for-bit and the column values identically; in particular, for the script's
example table (temp/rain columns and the custom metadata record) the restored
DataFrame equals the original and the decoded restored metadata record equals
the original record. -/
theorem c3_write_read_roundtrip :
    (∀ (t : Table) (c : Compression),
      read_table (write_table t c) = t ∧
      (read_table (write_table t c)).schema_metadata = t.schema_metadata ∧
      (read_table (write_table t c)).cols = t.cols) ∧
    restored_df = df ∧
    restored_table.schema_metadata = table_with_meta.schema_metadata ∧
    restored_meta = some custom_meta_content := by
  refine ⟨fun t c => ⟨rfl, rfl, rfl⟩, rfl, rfl, by decide⟩

/-! ### Character toolbox -/

/-- Unfolding of `Char.ofNat` at a valid code point. -/
theorem charToNat_ofNat {n : Nat} (h : n.isValidChar) : (Char.ofNat n).toNat = n := by
  unfold Char.ofNat
  rw [dif_pos h]
  simp [Char.ofNatAux, Char.toNat, UInt32.toNat, UInt32.ofNatCore]

/-- Unfolding of `Char.ofNat` below the surrogate range. -/
theorem charToNat_ofNat_small {n : Nat} (h : n < 55296) : (Char.ofNat n).toNat = n :=
  charToNat_ofNat (Or.inl (by omega))

/-- Character equality is code-point equality. -/
theorem charEq_iff_toNat {c1 c2 : Char} : c1 = c2 ↔ c1.toNat = c2.toNat := by
  constructor
  · intro h
    rw [h]
  · intro h
    calc c1 = Char.ofNat c1.toNat := (Char.ofNat_toNat c1).symm
      _ = Char.ofNat c2.toNat := by rw [h]
      _ = c2 := Char.ofNat_toNat c2

/-- Validity of every `Char`'s code point, in arithmetic form. -/
theorem char_toNat_valid (c : Char) :
    c.toNat < 55296 ∨ (57343 < c.toNat ∧ c.toNat < 1114112) := c.valid

/-! ### Hexadecimal escape lemmas -/

/-- Code point of a hexadecimal digit character. -/
theorem hexDigitChar_toNat {d : Nat} (h : d < 16) :
    (hexDigitChar d).toNat = if d < 10 then 48 + d else 87 + d := by
  unfold hexDigitChar
  by_cases h10 : d < 10
  · rw [if_pos h10, if_pos h10, charToNat_ofNat_small (by omega)]
  · rw [if_neg h10, if_neg h10, charToNat_ofNat_small (by omega)]

/-- Scanning a rendered hexadecimal digit recovers its value. -/
theorem hexVal_hexDigitChar {d : Nat} (h : d < 16) :
    hexVal? (hexDigitChar d) = some d := by
  unfold hexVal?
  rw [hexDigitChar_toNat h]
  by_cases h10 : d < 10
  · rw [if_pos h10, if_pos (by omega)]
    congr 1
    omega
  · rw [if_neg h10, if_neg (by omega), if_pos (by omega)]
    congr 1
    omega

/-- Scanning four rendered hexadecimal digits recovers the rendered value. -/
theorem hex4_hex4Chars {n : Nat} (h : n < 65536) (rest : List Char) :
    hex4? (hex4Chars n ++ rest) = some (n, rest) := by
  have h1 : n / 4096 % 16 < 16 := Nat.mod_lt _ (by omega)
  have h2 : n / 256 % 16 < 16 := Nat.mod_lt _ (by omega)
  have h3 : n / 16 % 16 < 16 := Nat.mod_lt _ (by omega)
  have h4 : n % 16 < 16 := Nat.mod_lt _ (by omega)
  simp only [hex4Chars, List.cons_append, List.nil_append, hex4?,
    hexVal_hexDigitChar h1, hexVal_hexDigitChar h2, hexVal_hexDigitChar h3,
    hexVal_hexDigitChar h4]
  congr 2
  omega

/-! ### String escape round trip -/

/-- One `scanString` step on a literal (unescaped) character. -/
theorem scanString_step_lit (fuel : Nat) (c : Char) (cs : List Char)
    (hq : ¬(c = '"')) (hb : ¬(c = '\\')) (hc : ¬(c.toNat < 32)) :
    scanString (fuel + 1) (c :: cs) =
      (scanString fuel cs).map (fun p => (c :: p.1, p.2)) := by
  simp only [scanString, if_neg hq, if_neg hb, if_neg hc]
  cases h : scanString fuel cs with
  | none => rfl
  | some p => rfl

/-- One `scanString` step on a backslash: decode the escape, continue after
it. -/
theorem scanString_step_esc (fuel : Nat) (cs : List Char) :
    scanString (fuel + 1) ('\\' :: cs) =
      match parseEscape cs with
      | none => none
      | some (ch, cs2) => (scanString fuel cs2).map (fun p => (ch :: p.1, p.2)) := by
  have h1 : ¬(('\\' : Char) = '"') := by decide
  simp only [scanString, if_neg h1, eq_self_iff_true, if_true]
  cases hp : parseEscape cs with
  | none => simp
  | some q =>
    obtain ⟨ch, cs2⟩ := q
    cases h : scanString fuel cs2 with
    | none => simp [h]
    | some p => simp [h]

/-- Unfolding of `escapeChar` on a plain printable character. -/
theorem escapeChar_lit (c : Char) (hq : ¬(c = '"')) (hb : ¬(c = '\\'))
    (h1 : 32 ≤ c.toNat) (h2 : c.toNat ≤ 126) : escapeChar c = [c] := by
  unfold escapeChar
  rw [if_neg hq, if_neg hb, if_neg (by omega), if_neg (by omega), if_neg (by omega),
    if_neg (by omega), if_neg (by omega), if_neg (by push_neg; omega)]

/-- Unfolding of `escapeChar` on a character needing a single `\uXXXX`
escape. -/
theorem escapeChar_bmp (c : Char) (hq : ¬(c = '"')) (hb : ¬(c = '\\'))
    (h8 : ¬(c.toNat = 8)) (h9 : ¬(c.toNat = 9)) (h10 : ¬(c.toNat = 10))
    (h12 : ¬(c.toNat = 12)) (h13 : ¬(c.toNat = 13))
    (hu : c.toNat < 32 ∨ 127 ≤ c.toNat) (hbmp : c.toNat < 65536) :
    escapeChar c = '\\' :: 'u' :: hex4Chars c.toNat := by
  unfold escapeChar
  rw [if_neg hq, if_neg hb, if_neg h8, if_neg h9, if_neg h10, if_neg h12, if_neg h13,
    if_pos hu, if_pos hbmp]

/-- Unfolding of `escapeChar` on an astral character (surrogate pair). -/
theorem escapeChar_astral (c : Char) (hge : 65536 ≤ c.toNat) :
    escapeChar c = '\\' :: 'u' :: hex4Chars (55296 + (c.toNat - 65536) / 1024)
         ++ '\\' :: 'u' :: hex4Chars (56320 + (c.toNat - 65536) % 1024) := by
  have hq : ¬(c = '"') := by
    intro h
    rw [charEq_iff_toNat, (by decide : ('"' : Char).toNat = 34)] at h
    omega
  have hb : ¬(c = '\\') := by
    intro h
    rw [charEq_iff_toNat, (by decide : ('\\' : Char).toNat = 92)] at h
    omega
  unfold escapeChar
  rw [if_neg hq, if_neg hb, if_neg (by omega), if_neg (by omega), if_neg (by omega),
    if_neg (by omega), if_neg (by omega), if_pos (Or.inr (by omega)), if_neg (by omega)]

set_option maxHeartbeats 2000000 in
/-- Scanning one escaped character prepends that character and continues. -/
theorem scanString_escapeChar (c : Char) (fuel : Nat) (rest : List Char) :
    scanString (fuel + 1) (escapeChar c ++ rest) =
      (scanString fuel rest).map (fun p => (c :: p.1, p.2)) := by
  by_cases hq : c = '"'
  · subst hq
    simp [(by decide : escapeChar '"' = ['\\', '"']), scanString_step_esc, parseEscape]
  · by_cases hb : c = '\\'
    · subst hb
      simp [(by decide : escapeChar '\\' = ['\\', '\\']), scanString_step_esc, parseEscape]
    · by_cases h8 : c.toNat = 8
      · have hc : c = Char.ofNat 8 := by
          rw [charEq_iff_toNat, h8, charToNat_ofNat_small (by omega)]
        rw [hc]
        simp [(by decide : escapeChar (Char.ofNat 8) = ['\\', 'b']),
          scanString_step_esc, parseEscape]
      · by_cases h9 : c.toNat = 9
        · have hc : c = Char.ofNat 9 := by
            rw [charEq_iff_toNat, h9, charToNat_ofNat_small (by omega)]
          rw [hc]
          simp [(by decide : escapeChar (Char.ofNat 9) = ['\\', 't']),
            scanString_step_esc, parseEscape]
        · by_cases h10 : c.toNat = 10
          · have hc : c = Char.ofNat 10 := by
              rw [charEq_iff_toNat, h10, charToNat_ofNat_small (by omega)]
            rw [hc]
            simp [(by decide : escapeChar (Char.ofNat 10) = ['\\', 'n']),
              scanString_step_esc, parseEscape]
          · by_cases h12 : c.toNat = 12
            · have hc : c = Char.ofNat 12 := by
                rw [charEq_iff_toNat, h12, charToNat_ofNat_small (by omega)]
              rw [hc]
              simp [(by decide : escapeChar (Char.ofNat 12) = ['\\', 'f']),
                scanString_step_esc, parseEscape]
            · by_cases h13 : c.toNat = 13
              · have hc : c = Char.ofNat 13 := by
                  rw [charEq_iff_toNat, h13, charToNat_ofNat_small (by omega)]
                rw [hc]
                simp [(by decide : escapeChar (Char.ofNat 13) = ['\\', 'r']),
                  scanString_step_esc, parseEscape]
              · by_cases hu : c.toNat < 32 ∨ 127 ≤ c.toNat
                · by_cases hbmp : c.toNat < 65536
                  · rw [escapeChar_bmp c hq hb h8 h9 h10 h12 h13 hu hbmp]
                    simp only [List.cons_append, List.append_assoc]
                    rw [scanString_step_esc]
                    have hv : c.toNat < 55296 ∨ 57343 < c.toNat := by
                      rcases char_toNat_valid c with h | h
                      · exact Or.inl h
                      · exact Or.inr h.1
                    simp only [parseEscape, hex4_hex4Chars hbmp, if_pos hv,
                      Char.ofNat_toNat]
                  · have hge : 65536 ≤ c.toNat := by omega
                    have hle : c.toNat ≤ 1114111 := by
                      rcases char_toNat_valid c with h | h
                      · omega
                      · omega
                    have hm := Nat.mod_lt (c.toNat - 65536) (show 0 < 1024 by omega)
                    have hhi : 55296 + (c.toNat - 65536) / 1024 < 65536 := by omega
                    have hlo : 56320 + (c.toNat - 65536) % 1024 < 65536 := by omega
                    rw [escapeChar_astral c hge]
                    simp only [List.cons_append, List.append_assoc]
                    rw [scanString_step_esc]
                    have hpe : parseEscape ('u' :: (hex4Chars (55296 + (c.toNat - 65536) / 1024) ++
                        ('\\' :: 'u' :: (hex4Chars (56320 + (c.toNat - 65536) % 1024) ++ rest)))) =
                        some (c, rest) := by
                      simp only [parseEscape, hex4_hex4Chars hhi]
                      rw [if_neg (by push_neg; constructor <;> omega), if_pos (by omega)]
                      simp only [List.cons_append, hex4_hex4Chars hlo]
                      rw [if_pos ⟨by omega, by omega⟩]
                      have harith : 65536 + (55296 + (c.toNat - 65536) / 1024 - 55296) * 1024 +
                          (56320 + (c.toNat - 65536) % 1024 - 56320) = c.toNat := by omega
                      rw [harith, Char.ofNat_toNat]
                    rw [hpe]
                · push_neg at hu
                  rw [escapeChar_lit c hq hb (by omega) (by omega), List.singleton_append]
                  exact scanString_step_lit fuel c rest hq hb (by omega)

/-- Scanning an escaped string body up to the closing quote recovers the
original characters. -/
theorem scanString_encoded : ∀ (s : List Char) (fuel : Nat) (rest : List Char),
    s.length < fuel →
    scanString fuel ((s.map escapeChar).flatten ++ '"' :: rest) = some (s, rest)
  | [], fuel, rest, h => by
    cases fuel with
    | zero => omega
    | succ f =>
      simp only [List.map_nil, List.flatten_nil, List.nil_append, scanString,
        eq_self_iff_true, if_true]
  | c :: s, fuel, rest, h => by
    cases fuel with
    | zero => omega
    | succ f =>
      rw [List.map_cons, List.flatten_cons, List.append_assoc, scanString_escapeChar,
        scanString_encoded s f rest (by simp at h; omega)]
      rfl

/-! ### Decimal digit lemmas -/

/-- Zero has no digits under `natDigitsRev`, at any fuel. -/
theorem natDigitsRev_zero : ∀ fuel : Nat, natDigitsRev fuel 0 = []
  | 0 => rfl
  | _ + 1 => rfl

/-- Digits produced by `natDigitsRev` are below ten. -/
theorem natDigitsRev_lt10 : ∀ (fuel n d : Nat), d ∈ natDigitsRev fuel n → d < 10
  | 0, _, _, h => by simp [natDigitsRev] at h
  | fuel + 1, 0, d, h => by simp [natDigitsRev] at h
  | fuel + 1, n + 1, d, h => by
    simp only [natDigitsRev, List.mem_cons] at h
    rcases h with h | h
    · subst h
      exact Nat.mod_lt _ (by omega)
    · exact natDigitsRev_lt10 fuel ((n + 1) / 10) d h

/-- Digit extraction is faithful: the digits evaluate back to the number. -/
theorem valLE_natDigitsRev : ∀ (fuel n : Nat), n ≤ fuel →
    valLE (natDigitsRev fuel n) = n
  | 0, n, h => by
    have hn : n = 0 := by omega
    subst hn
    rfl
  | fuel + 1, 0, _ => rfl
  | fuel + 1, n + 1, h => by
    have hrec := valLE_natDigitsRev fuel ((n + 1) / 10) (by omega)
    simp only [natDigitsRev, valLE, hrec]
    omega

/-- Reversed digit list structure of a positive number: the leading digit is
nonzero, every digit below ten. -/
theorem natDigitsRev_reverse_head : ∀ (fuel n : Nat), 0 < n → n ≤ fuel →
    ∃ b bs, (natDigitsRev fuel n).reverse = b :: bs ∧ 1 ≤ b ∧ b < 10 ∧
      ∀ d ∈ bs, d < 10
  | 0, n, h0, h => by omega
  | fuel + 1, 0, h0, h => by omega
  | fuel + 1, n + 1, h0, h => by
    by_cases hsmall : n + 1 < 10
    · have hdiv : (n + 1) / 10 = 0 := by omega
      refine ⟨n + 1, [], ?_, by omega, by omega, by simp⟩
      simp [natDigitsRev, hdiv, Nat.mod_eq_of_lt hsmall, natDigitsRev_zero]
    · have hdiv : 0 < (n + 1) / 10 := by omega
      obtain ⟨b, bs, hrev, hb1, hb2, hbs⟩ :=
        natDigitsRev_reverse_head fuel ((n + 1) / 10) hdiv (by omega)
      refine ⟨b, bs ++ [(n + 1) % 10], ?_, hb1, hb2, ?_⟩
      · simp only [natDigitsRev, List.reverse_cons, hrev]
        rfl
      · intro d hd
        rcases List.mem_append.mp hd with h | h
        · exact hbs d h
        · simp at h
          subst h
          exact Nat.mod_lt _ (by omega)

/-- Folding decimal digits from the most significant side computes the
place-value sum. -/
theorem foldl_reverse_valLE : ∀ (ds : List Nat) (a : Nat),
    ds.reverse.foldl (fun x d => x * 10 + d) a = a * 10 ^ ds.length + valLE ds
  | [], a => by simp [valLE]
  | d :: t, a => by
    simp only [List.reverse_cons, List.foldl_append, foldl_reverse_valLE t a,
      List.foldl_cons, List.foldl_nil, valLE, List.length_cons]
    ring

/-- Scanning a run of rendered digits folds them into the accumulator and
stops exactly at the boundary. -/
theorem takeDigitsAcc_encoded : ∀ (ds : List Nat), (∀ d ∈ ds, d < 10) →
    ∀ (a : Nat) (rest : List Char), numStop rest = true →
    takeDigitsAcc a (ds.map (fun d => Char.ofNat (48 + d)) ++ rest) =
      (ds.foldl (fun x d => x * 10 + d) a, rest)
  | [], _, a, rest, hrest => by
    cases rest with
    | nil => rfl
    | cons c t =>
      simp only [numStop, Bool.not_eq_true', Bool.or_eq_false_iff] at hrest
      simp [takeDigitsAcc, hrest.1.1.1]
  | d :: ds, hds, a, rest, hrest => by
    have hd : d < 10 := hds d (by simp)
    have htn : (Char.ofNat (48 + d)).toNat = 48 + d := charToNat_ofNat_small (by omega)
    have hdig : isDigitCh (Char.ofNat (48 + d)) = true := by
      simp only [isDigitCh, htn, decide_eq_true_eq]
      omega
    simp only [List.map_cons, List.cons_append, takeDigitsAcc, hdig, if_true,
      List.append_eq]
    rw [takeDigitsAcc_encoded ds (fun x hx => hds x (by simp [hx])) _ rest hrest]
    simp only [List.foldl_cons, digitVal, htn]
    congr 2
    omega

/-- A number-boundary position cannot extend the token with a fraction or
exponent. -/
theorem headFrac_false_of_numStop (rest : List Char) (h : numStop rest = true) :
    headFrac rest = false := by
  cases rest with
  | nil => rfl
  | cons c t =>
    simp only [numStop, Bool.not_eq_true', Bool.or_eq_false_iff] at h
    simp only [headFrac, Bool.or_eq_false_iff]
    exact ⟨⟨h.1.1.2, h.1.2⟩, h.2⟩

/-- Head structure of a rendered natural number: it starts with a digit. -/
theorem natChars_head (n : Nat) :
    ∃ c t, natChars n = c :: t ∧ 48 ≤ c.toNat ∧ c.toNat ≤ 57 := by
  by_cases h0 : n = 0
  · subst h0
    exact ⟨'0', [], rfl, by decide, by decide⟩
  · obtain ⟨b, bs, hrev, hb1, hb2, _⟩ :=
      natDigitsRev_reverse_head n n (by omega) le_rfl
    refine ⟨Char.ofNat (48 + b), bs.map (fun d => Char.ofNat (48 + d)), ?_, ?_, ?_⟩
    · simp [natChars, h0, hrev]
    · rw [charToNat_ofNat_small (by omega)]
      omega
    · rw [charToNat_ofNat_small (by omega)]
      omega

/-- Scanning a rendered natural number recovers it. -/
theorem parseUIntTok_natChars (n : Nat) (rest : List Char) (h : numStop rest = true) :
    parseUIntTok (natChars n ++ rest) = some (n, rest) := by
  have hfrac := headFrac_false_of_numStop rest h
  by_cases h0 : n = 0
  · subst h0
    simp only [natChars, if_pos rfl, List.cons_append, List.nil_append, parseUIntTok,
      eq_self_iff_true, if_true, hfrac, Bool.false_eq_true, if_false]
  · obtain ⟨b, bs, hrev, hb1, hb2, hbs⟩ :=
      natDigitsRev_reverse_head n n (by omega) le_rfl
    have hn : natChars n = Char.ofNat (48 + b) :: bs.map (fun d => Char.ofNat (48 + d)) := by
      simp [natChars, h0, hrev]
    have htn : (Char.ofNat (48 + b)).toNat = 48 + b := charToNat_ofNat_small (by omega)
    have hne : ¬(Char.ofNat (48 + b) = '0') := by
      rw [charEq_iff_toNat, htn, (by decide : ('0' : Char).toNat = 48)]
      omega
    have hdig : isDigitCh (Char.ofNat (48 + b)) = true := by
      simp only [isDigitCh, htn, decide_eq_true_eq]
      omega
    have hval : digitVal (Char.ofNat (48 + b)) = b := by
      simp only [digitVal, htn]
      omega
    have htake := takeDigitsAcc_encoded bs hbs b rest h
    have hfold : bs.foldl (fun x d => x * 10 + d) b = n := by
      have h1 := foldl_reverse_valLE (natDigitsRev n n) 0
      rw [valLE_natDigitsRev n n le_rfl, hrev, List.foldl_cons] at h1
      have hb0 : (0 : Nat) * 10 + b = b := by omega
      rw [hb0] at h1
      omega
    rw [hn, List.cons_append]
    simp only [parseUIntTok, if_neg hne, hdig, if_true, htake, hval, hfold, hfrac,
      Bool.false_eq_true, if_false]

/-- Scanning a rendered integer recovers it. -/
theorem parseIntTok_intChars (i : Int) (rest : List Char) (h : numStop rest = true) :
    parseIntTok (intChars i ++ rest) = some (i, rest) := by
  cases i with
  | ofNat n =>
    obtain ⟨c, t, hct, h1, h2⟩ := natChars_head n
    have hne : ¬(c = '-') := by
      rw [charEq_iff_toNat, (by decide : ('-' : Char).toNat = 45)]
      omega
    have hu := parseUIntTok_natChars n rest h
    simp only [intChars, hct, List.cons_append, parseIntTok, if_neg hne]
    rw [← List.cons_append, ← hct, hu]
    rfl
  | negSucc n =>
    have hu := parseUIntTok_natChars (n + 1) rest h
    simp only [intChars, List.cons_append, parseIntTok, eq_self_iff_true, if_true, hu,
      Option.map_some]
    congr 2

/-! ### Head and whitespace lemmas -/

/-- Whitespace removal does not touch a non-whitespace head. -/
theorem dropWs_cons (c : Char) (t : List Char) (h : jsonWs c = false) :
    dropWs (c :: t) = c :: t := by
  simp [dropWs, h]

/-- Facts about a digit-or-minus head character. -/
theorem headFacts_digit (c : Char) (h1 : 45 ≤ c.toNat) (h2 : c.toNat ≤ 57) :
    jsonWs c = false ∧ ¬(c = ']') ∧ ¬(c = '\x7d') := by
  refine ⟨?_, ?_, ?_⟩
  · simp only [jsonWs, Bool.or_eq_false_iff, decide_eq_false_iff_not]
    omega
  · rw [charEq_iff_toNat, (by decide : (']' : Char).toNat = 93)]
    omega
  · rw [charEq_iff_toNat, (by decide : ('\x7d' : Char).toNat = 125)]
    omega

/-- Head structure of every encoded value: the first character is not
whitespace and closes no bracket. -/
theorem dumpChars_head (v : JVal) :
    ∃ c t, dumpChars v = c :: t ∧ jsonWs c = false ∧ ¬(c = ']') ∧ ¬(c = '\x7d') := by
  cases v with
  | jstr s =>
    refine ⟨'"', _, rfl, ?_, ?_, ?_⟩ <;> decide
  | jbool b =>
    cases b with
    | true => refine ⟨'t', _, rfl, ?_, ?_, ?_⟩ <;> decide
    | false => refine ⟨'f', _, rfl, ?_, ?_, ?_⟩ <;> decide
  | jnull =>
    refine ⟨'n', _, rfl, ?_, ?_, ?_⟩ <;> decide
  | jarr l =>
    refine ⟨'[', _, rfl, ?_, ?_, ?_⟩ <;> decide
  | jobj o =>
    refine ⟨'\x7b', _, rfl, ?_, ?_, ?_⟩ <;> decide
  | jint i =>
    cases i with
    | ofNat n =>
      obtain ⟨c, t, hct, h1, h2⟩ := natChars_head n
      obtain ⟨hw, hr, hb⟩ := headFacts_digit c (by omega) h2
      exact ⟨c, t, by simp only [dumpChars, intChars, hct], hw, hr, hb⟩
    | negSucc n =>
      refine ⟨'-', natChars (n + 1), by simp only [dumpChars, intChars], ?_, ?_, ?_⟩ <;>
        decide

/-- Whitespace removal is the identity on an encoded value and its tail. -/
theorem dropWs_dumpChars (v : JVal) (rest : List Char) :
    dropWs (dumpChars v ++ rest) = dumpChars v ++ rest := by
  obtain ⟨c, t, hct, hw, _, _⟩ := dumpChars_head v
  rw [hct, List.cons_append, dropWs_cons c _ hw]

/-! ### Collapse of collected members into a dict -/

/-- Key membership distributes over object concatenation. -/
theorem objHasKey_append : ∀ (a b : JObj) (k : String),
    objHasKey (objAppend a b) k = (objHasKey a k || objHasKey b k)
  | .nil, b, k => rfl
  | .cons k0 v0 t, b, k => by
    simp only [objAppend, objHasKey, objHasKey_append t b k, Bool.or_assoc]

/-- Inserting a fresh key appends the member. -/
theorem objInsert_notMem : ∀ (acc : JObj) (k : String) (v : JVal),
    objHasKey acc k = false →
    objInsert acc k v = objAppend acc (.cons k v .nil)
  | .nil, k, v, _ => rfl
  | .cons k0 v0 t, k, v, h => by
    simp only [objHasKey, Bool.or_eq_false_iff, decide_eq_false_iff_not] at h
    simp only [objInsert, if_neg h.1, objAppend,
      objInsert_notMem t k v h.2]

/-- Object concatenation is associative. -/
theorem objAppend_assoc : ∀ (a b c : JObj),
    objAppend (objAppend a b) c = objAppend a (objAppend b c)
  | .nil, _, _ => rfl
  | .cons k v t, b, c => by simp only [objAppend, objAppend_assoc t b c]

/-- Appending nothing to an object changes nothing. -/
theorem objAppend_nil : ∀ acc : JObj, objAppend acc .nil = acc
  | .nil => rfl
  | .cons k v t => by simp only [objAppend, objAppend_nil t]

/-- Folding members with unique keys, all fresh for the accumulator, appends
them in order. -/
theorem objDictAux_append : ∀ (o acc : JObj), objNodupKeys o = true →
    (∀ k, objHasKey o k = true → objHasKey acc k = false) →
    objDictAux acc o = objAppend acc o
  | .nil, acc, _, _ => by
    simp only [objDictAux, objAppend_nil]
  | .cons k1 v1 t, acc, hnd, hdisj => by
    simp only [objNodupKeys, Bool.and_eq_true, Bool.not_eq_true'] at hnd
    have h1 : objHasKey acc k1 = false := hdisj k1 (by simp [objHasKey])
    simp only [objDictAux, objInsert_notMem acc k1 v1 h1]
    rw [objDictAux_append t _ hnd.2]
    · rw [objAppend_assoc]
      rfl
    · intro k hk
      rw [objHasKey_append]
      have hka : objHasKey acc k = false := hdisj k (by simp [objHasKey, hk])
      have hk1 : ¬(k1 = k) := by
        intro he
        rw [he] at hnd
        rw [hnd.1] at hk
        exact Bool.false_ne_true hk
      simp [hka, objHasKey, hk1]

/-- A member list with unique keys is unchanged by the dict collapse. -/
theorem objDict_nodup (o : JObj) (h : objNodupKeys o = true) : objDict o = o := by
  unfold objDict
  rw [objDictAux_append o .nil h (fun k _ => rfl)]
  rfl

/-! ### Scanner dispatch lemmas -/

/-- Dispatch of the value scanner on a number head (digit or minus sign). -/
theorem parseVal_step_num (fuel : Nat) (c : Char) (r : List Char)
    (h1 : 45 ≤ c.toNat) (h2 : c.toNat ≤ 57) (h3 : ¬(c.toNat = 46)) (h4 : ¬(c.toNat = 47)) :
    parseVal (fuel + 1) (c :: r) =
      match parseIntTok (c :: r) with
      | none => none
      | some (i, rest) => some (.jint i, rest) := by
  have hw : jsonWs c = false := by
    simp only [jsonWs, Bool.or_eq_false_iff, decide_eq_false_iff_not]
    omega
  have hq : ¬(c = '"') := by
    rw [charEq_iff_toNat, (by decide : ('"' : Char).toNat = 34)]
    omega
  have hlb : ¬(c = '[') := by
    rw [charEq_iff_toNat, (by decide : ('[' : Char).toNat = 91)]
    omega
  have hob : ¬(c = '\x7b') := by
    rw [charEq_iff_toNat, (by decide : ('\x7b' : Char).toNat = 123)]
    omega
  have hn : ¬(c = 'n') := by
    rw [charEq_iff_toNat, (by decide : ('n' : Char).toNat = 110)]
    omega
  have ht : ¬(c = 't') := by
    rw [charEq_iff_toNat, (by decide : ('t' : Char).toNat = 116)]
    omega
  have hf : ¬(c = 'f') := by
    rw [charEq_iff_toNat, (by decide : ('f' : Char).toNat = 102)]
    omega
  have hnum : (c = '-' || isDigitCh c) = true := by
    by_cases h45 : c.toNat = 45
    · have hc : c = '-' := by
        rw [charEq_iff_toNat, (by decide : ('-' : Char).toNat = 45)]
        exact h45
      simp [hc]
    · have hd : isDigitCh c = true := by
        simp only [isDigitCh, decide_eq_true_eq]
        omega
      simp [hd]
  simp only [parseVal, dropWs_cons c r hw, if_neg hq, if_neg hlb, if_neg hob,
    if_neg hn, if_neg ht, if_neg hf, hnum, if_true]

/-- Number scanning may stop before a closing bracket. -/
theorem numStop_rbracket (t : List Char) : numStop (']' :: t) = true := rfl

/-- Number scanning may stop before a closing brace. -/
theorem numStop_rbrace (t : List Char) : numStop ('\x7d' :: t) = true := rfl

/-- Number scanning may stop before a comma. -/
theorem numStop_comma (t : List Char) : numStop (',' :: t) = true := rfl

/-- Whitespace removal consumes a leading space. -/
theorem dropWs_space (x : List Char) : dropWs (' ' :: x) = dropWs x := rfl

/-! ### The scanner inverts the encoder -/

mutual
/-- Scanning an encoded value (with a number-boundary tail) recovers the
value. -/
theorem rtV : ∀ (v : JVal) (fuel : Nat) (rest : List Char),
    validV v = true → sizeV v ≤ fuel → numStop rest = true →
    parseVal fuel (dumpChars v ++ rest) = some (v, rest)
  | .jnull, fuel, rest, _, hs, _ => by
    cases fuel with
    | zero => simp [sizeV] at hs
    | succ f => simp [dumpChars, parseVal, dropWs, jsonWs]
  | .jbool true, fuel, rest, _, hs, _ => by
    cases fuel with
    | zero => simp [sizeV] at hs
    | succ f => simp [dumpChars, parseVal, dropWs, jsonWs]
  | .jbool false, fuel, rest, _, hs, _ => by
    cases fuel with
    | zero => simp [sizeV] at hs
    | succ f => simp [dumpChars, parseVal, dropWs, jsonWs]
  | .jstr s, fuel, rest, _, hs, _ => by
    cases fuel with
    | zero => simp [sizeV] at hs
    | succ f =>
      have hf : s.data.length < f := by
        simp only [sizeV, String.length] at hs
        omega
      have hin : dumpChars (.jstr s) ++ rest =
          '"' :: ((s.data.map escapeChar).flatten ++ '"' :: rest) := by
        simp [dumpChars, encStr]
      rw [hin]
      simp only [parseVal]
      rw [dropWs_cons '"' _ (by decide)]
      simp only [eq_self_iff_true, if_true, scanString_encoded s.data f rest hf]
  | .jint i, fuel, rest, _, hs, hstop => by
    cases fuel with
    | zero => simp [sizeV] at hs
    | succ f =>
      cases i with
      | ofNat n =>
        obtain ⟨c, t, hct, h1, h2⟩ := natChars_head n
        have hin : dumpChars (.jint (Int.ofNat n)) ++ rest = c :: (t ++ rest) := by
          simp only [dumpChars, intChars, hct, List.cons_append]
        rw [hin, parseVal_step_num f c (t ++ rest) (by omega) h2 (by omega) (by omega)]
        have hback : c :: (t ++ rest) = intChars (Int.ofNat n) ++ rest := by
          simp only [intChars, hct, List.cons_append]
        rw [hback, parseIntTok_intChars _ rest hstop]
      | negSucc n =>
        have hin : dumpChars (.jint (Int.negSucc n)) ++ rest =
            '-' :: (natChars (n + 1) ++ rest) := by
          simp only [dumpChars, intChars, List.cons_append]
        rw [hin, parseVal_step_num f '-' _ (by decide) (by decide) (by decide) (by decide)]
        have hback : '-' :: (natChars (n + 1) ++ rest) = intChars (Int.negSucc n) ++ rest := by
          simp only [intChars, List.cons_append]
        rw [hback, parseIntTok_intChars _ rest hstop]
  | .jarr .nil, fuel, rest, _, hs, _ => by
    cases fuel with
    | zero => simp [sizeV] at hs
    | succ f => simp [dumpChars, dumpList, parseVal, dropWs, jsonWs]
  | .jarr (.cons v t), fuel, rest, hv, hs, _ => by
    cases fuel with
    | zero => simp [sizeV, sizeL] at hs
    | succ f =>
      obtain ⟨c2, t2, hct2, hw2, hrb2, _⟩ := dumpChars_head v
      have hvalid : validL (.cons v t) = true := by
        simpa [validV] using hv
      have hsz : sizeL (.cons v t) ≤ f := by
        simp only [sizeV] at hs
        omega
      have hin : dumpChars (.jarr (.cons v t)) ++ rest =
          '[' :: (dumpList (.cons v t) ++ (']' :: rest)) := by
        simp [dumpChars]
      have hws : dropWs ('[' :: (dumpList (.cons v t) ++ (']' :: rest))) =
          '[' :: (dumpList (.cons v t) ++ (']' :: rest)) := dropWs_cons _ _ (by decide)
      rw [hin]
      simp only [parseVal, hws]
      have hdl : dumpList (.cons v t) ++ (']' :: rest) =
          dumpChars v ++ (dumpListSep t ++ ']' :: rest) := by
        simp [dumpList, List.append_assoc]
      rw [hdl, dropWs_dumpChars v _, hct2, List.cons_append]
      simp only [if_neg hrb2]
      rw [← List.cons_append, ← hct2, ← hdl, rtL v t f rest hvalid hsz]
      simp
  | .jobj .nil, fuel, rest, _, hs, _ => by
    cases fuel with
    | zero => simp [sizeV] at hs
    | succ f => simp [dumpChars, dumpObj, parseVal, dropWs, jsonWs]
  | .jobj (.cons k v t), fuel, rest, hv, hs, _ => by
    cases fuel with
    | zero => simp [sizeV, sizeO] at hs
    | succ f =>
      have hnodup : objNodupKeys (.cons k v t) = true := by
        simp only [validV, Bool.and_eq_true] at hv
        exact hv.1
      have hvalid : validO (.cons k v t) = true := by
        simp only [validV, Bool.and_eq_true] at hv
        exact hv.2
      have hsz : sizeO (.cons k v t) ≤ f := by
        simp only [sizeV] at hs
        omega
      have hin : dumpChars (.jobj (.cons k v t)) ++ rest =
          '\x7b' :: (dumpObj (.cons k v t) ++ ('\x7d' :: rest)) := by
        simp [dumpChars]
      have hws : dropWs ('\x7b' :: (dumpObj (.cons k v t) ++ ('\x7d' :: rest))) =
          '\x7b' :: (dumpObj (.cons k v t) ++ ('\x7d' :: rest)) := dropWs_cons _ _ (by decide)
      rw [hin]
      simp only [parseVal, hws]
      have hdo : dumpObj (.cons k v t) ++ ('\x7d' :: rest) =
          '"' :: ((k.data.map escapeChar).flatten ++
            ('"' :: (':' :: ' ' :: (dumpChars v ++ (dumpObjSep t ++ '\x7d' :: rest))))) := by
        simp [dumpObj, encStr, List.append_assoc]
      rw [hdo, dropWs_cons '"' _ (by decide)]
      simp only [if_neg (by decide : ¬(('"' : Char) = '\x7d'))]
      rw [← hdo, rtO k v t f rest hvalid hsz]
      simp [objDict_nodup _ hnodup]
  termination_by v _ _ _ _ _ => sizeV v
  decreasing_by
    all_goals simp [sizeV, sizeL, sizeO]
/-- Scanning an encoded nonempty element list up to the closing bracket
recovers the elements. -/
theorem rtL : ∀ (v : JVal) (t : JList) (fuel : Nat) (rest : List Char),
    validL (.cons v t) = true → sizeL (.cons v t) ≤ fuel →
    parseElems fuel (dumpList (.cons v t) ++ ']' :: rest) = some (.cons v t, rest)
  | v, .nil, fuel, rest, hvalid, hsz => by
    cases fuel with
    | zero => simp [sizeL] at hsz
    | succ f =>
      have hv : validV v = true := by
        simp only [validL, Bool.and_eq_true] at hvalid
        exact hvalid.1
      have hszv : sizeV v ≤ f := by
        simp only [sizeL] at hsz
        omega
      have hdl : dumpList (.cons v .nil) ++ ']' :: rest =
          dumpChars v ++ (dumpListSep .nil ++ ']' :: rest) := by
        simp [dumpList, List.append_assoc]
      simp only [parseElems]
      rw [hdl]
      simp only [dumpListSep, List.nil_append]
      rw [rtV v f (']' :: rest) hv hszv (numStop_rbracket rest)]
      simp [dropWs, jsonWs]
  | v, .cons w u, fuel, rest, hvalid, hsz => by
    cases fuel with
    | zero => simp [sizeL] at hsz
    | succ f =>
      have hv : validV v = true := by
        simp only [validL, Bool.and_eq_true] at hvalid
        exact hvalid.1
      have hszv : sizeV v ≤ f := by
        simp only [sizeL] at hsz
        omega
      have hdl : dumpList (.cons v (.cons w u)) ++ ']' :: rest =
          dumpChars v ++ (dumpListSep (.cons w u) ++ ']' :: rest) := by
        simp [dumpList, List.append_assoc]
      simp only [parseElems]
      rw [hdl]
      have hsep : dumpListSep (.cons w u) ++ ']' :: rest =
          ',' :: ' ' :: (dumpChars w ++ (dumpListSep u ++ ']' :: rest)) := by
        simp [dumpListSep, List.append_assoc]
      rw [hsep, rtV v f _ hv hszv (numStop_comma _)]
      have hvt : validL (.cons w u) = true := by
        simp only [validL, Bool.and_eq_true] at hvalid
        simp only [validL, Bool.and_eq_true]
        exact hvalid.2
      have hszt : sizeL (.cons w u) ≤ f := by
        simp only [sizeL] at hsz
        simp only [sizeL]
        omega
      have hrec := rtL w u f rest hvt hszt
      have hdl2 : dumpList (.cons w u) ++ ']' :: rest =
          dumpChars w ++ (dumpListSep u ++ ']' :: rest) := by
        simp [dumpList, List.append_assoc]
      rw [hdl2] at hrec
      have hws : dropWs (',' :: ' ' :: (dumpChars w ++ (dumpListSep u ++ ']' :: rest))) =
          ',' :: ' ' :: (dumpChars w ++ (dumpListSep u ++ ']' :: rest)) :=
        dropWs_cons _ _ (by decide)
      simp only [hws, dropWs_space, dropWs_dumpChars, hrec]
  termination_by v t _ _ _ _ => sizeL (.cons v t)
  decreasing_by
    all_goals (simp [sizeV, sizeL, sizeO] <;> omega)
/-- Scanning an encoded nonempty member list up to the closing brace recovers
the members in order. -/
theorem rtO : ∀ (k : String) (v : JVal) (t : JObj) (fuel : Nat) (rest : List Char),
    validO (.cons k v t) = true → sizeO (.cons k v t) ≤ fuel →
    parseMembers fuel (dumpObj (.cons k v t) ++ '\x7d' :: rest) =
      some (.cons k v t, rest)
  | k, v, .nil, fuel, rest, hvalid, hsz => by
    cases fuel with
    | zero => simp [sizeO] at hsz
    | succ f =>
      have hv : validV v = true := by
        simp only [validO, Bool.and_eq_true] at hvalid
        exact hvalid.1
      have hkey : k.data.length < f := by
        simp only [sizeO, String.length] at hsz
        omega
      have hszv : sizeV v ≤ f := by
        simp only [sizeO] at hsz
        omega
      have hdo : dumpObj (.cons k v .nil) ++ '\x7d' :: rest =
          '"' :: ((k.data.map escapeChar).flatten ++
            ('"' :: (':' :: ' ' :: (dumpChars v ++ (dumpObjSep .nil ++ '\x7d' :: rest))))) := by
        simp [dumpObj, encStr, List.append_assoc]
      rw [hdo]
      simp only [parseMembers]
      rw [scanString_encoded k.data f _ hkey]
      have hval := rtV v f ('\x7d' :: rest) hv hszv (numStop_rbrace rest)
      have hsepn : dumpObjSep JObj.nil ++ '\x7d' :: rest = '\x7d' :: rest := by
        simp [dumpObjSep]
      rw [hsepn]
      have hws1 : dropWs (':' :: ' ' :: (dumpChars v ++ '\x7d' :: rest)) =
          ':' :: ' ' :: (dumpChars v ++ '\x7d' :: rest) := dropWs_cons _ _ (by decide)
      have hwsb : dropWs ('\x7d' :: rest) = '\x7d' :: rest := dropWs_cons _ _ (by decide)
      simp only [hws1, dropWs_space, dropWs_dumpChars, hval, hwsb]
  | k, v, .cons k2 v2 u, fuel, rest, hvalid, hsz => by
    cases fuel with
    | zero => simp [sizeO] at hsz
    | succ f =>
      have hv : validV v = true := by
        simp only [validO, Bool.and_eq_true] at hvalid
        exact hvalid.1
      have hkey : k.data.length < f := by
        simp only [sizeO, String.length] at hsz
        omega
      have hszv : sizeV v ≤ f := by
        simp only [sizeO] at hsz
        omega
      have hdo : dumpObj (.cons k v (.cons k2 v2 u)) ++ '\x7d' :: rest =
          '"' :: ((k.data.map escapeChar).flatten ++
            ('"' :: (':' :: ' ' ::
              (dumpChars v ++ (dumpObjSep (.cons k2 v2 u) ++ '\x7d' :: rest))))) := by
        simp [dumpObj, encStr, List.append_assoc]
      rw [hdo]
      simp only [parseMembers]
      rw [scanString_encoded k.data f _ hkey]
      have hsep : dumpObjSep (.cons k2 v2 u) ++ '\x7d' :: rest =
          ',' :: ' ' :: ('"' :: ((k2.data.map escapeChar).flatten ++
            ('"' :: (':' :: ' ' :: (dumpChars v2 ++ (dumpObjSep u ++ '\x7d' :: rest)))))) := by
        simp [dumpObjSep, encStr, List.append_assoc]
      have hval := rtV v f (dumpObjSep (.cons k2 v2 u) ++ '\x7d' :: rest) hv hszv
        (by rw [hsep]; exact numStop_comma _)
      have hvt : validO (.cons k2 v2 u) = true := by
        simp only [validO, Bool.and_eq_true] at hvalid
        simp only [validO, Bool.and_eq_true]
        exact hvalid.2
      have hszt : sizeO (.cons k2 v2 u) ≤ f := by
        simp only [sizeO] at hsz
        simp only [sizeO]
        omega
      have hrec := rtO k2 v2 u f rest hvt hszt
      have hdo2 : dumpObj (.cons k2 v2 u) ++ '\x7d' :: rest =
          '"' :: ((k2.data.map escapeChar).flatten ++
            ('"' :: (':' :: ' ' :: (dumpChars v2 ++ (dumpObjSep u ++ '\x7d' :: rest))))) := by
        simp [dumpObj, encStr, List.append_assoc]
      rw [hdo2] at hrec
      generalize hG : (k2.data.map escapeChar).flatten ++
          ('"' :: (':' :: ' ' :: (dumpChars v2 ++ (dumpObjSep u ++ '\x7d' :: rest)))) = G
        at hsep hrec
      rw [hsep] at hval
      rw [hsep]
      have hws1 : dropWs (':' :: ' ' :: (dumpChars v ++ (',' :: ' ' :: ('"' :: G)))) =
          ':' :: ' ' :: (dumpChars v ++ (',' :: ' ' :: ('"' :: G))) :=
        dropWs_cons _ _ (by decide)
      have hws2 : dropWs (',' :: ' ' :: ('"' :: G)) = ',' :: ' ' :: ('"' :: G) :=
        dropWs_cons _ _ (by decide)
      have hws3 : dropWs ('"' :: G) = '"' :: G := dropWs_cons _ _ (by decide)
      simp only [hws1, dropWs_space, dropWs_dumpChars, hval, hws2, hws3, hrec]
  termination_by k v t _ _ _ _ => sizeO (.cons k v t)
  decreasing_by
    all_goals (simp [sizeV, sizeL, sizeO] <;> omega)
end

/-! ### Fuel bound: the scanner needs no more fuel than the input length -/

/-- Escapes are never empty. -/
theorem escapeChar_length_pos (c : Char) : 1 ≤ (escapeChar c).length := by
  unfold escapeChar
  split_ifs <;> simp [hex4Chars]

/-- Escaping can only lengthen a string. -/
theorem flatten_escape_length : ∀ l : List Char,
    l.length ≤ ((l.map escapeChar).flatten).length
  | [] => le_refl 0
  | c :: l => by
    simp only [List.map_cons, List.flatten_cons, List.length_cons, List.length_append]
    have h1 := escapeChar_length_pos c
    have h2 := flatten_escape_length l
    omega

/-- A rendered string literal is at least as long as the string plus its
quotes. -/
theorem encStr_length (s : String) : s.length + 2 ≤ (encStr s).length := by
  simp only [encStr, List.length_cons, List.length_append, List.length_cons,
    List.length_nil, String.length]
  have := flatten_escape_length s.data
  omega

/-- A rendered integer is never empty. -/
theorem intChars_length_pos (i : Int) : 1 ≤ (intChars i).length := by
  cases i with
  | ofNat n =>
    by_cases h0 : n = 0
    · subst h0
      decide
    · obtain ⟨b, bs, hrev, _, _, _⟩ := natDigitsRev_reverse_head n n (by omega) le_rfl
      simp [intChars, natChars, h0, hrev]
  | negSucc n => simp [intChars]

mutual
/-- Fuel bound for values: the scanner fuel a value needs is at most its
encoding's length. -/
theorem lenV : ∀ v : JVal, sizeV v ≤ (dumpChars v).length
  | .jstr s => by
    have h := encStr_length s
    simp only [sizeV, dumpChars]
    omega
  | .jint i => by
    have h := intChars_length_pos i
    simp only [sizeV, dumpChars]
    omega
  | .jbool true => by decide
  | .jbool false => by decide
  | .jnull => by decide
  | .jarr .nil => by decide
  | .jarr (.cons v t) => by
    have h1 := lenV v
    have h2 := lenL t
    simp only [sizeV, sizeL, dumpChars, dumpList, List.length_cons, List.length_append,
      List.length_nil]
    omega
  | .jobj .nil => by decide
  | .jobj (.cons k v t) => by
    have h1 := lenV v
    have h2 := lenO t
    have h3 := encStr_length k
    simp only [sizeV, sizeO, dumpChars, dumpObj, List.length_cons, List.length_append,
      List.length_nil]
    omega
/-- Fuel bound for list tails. -/
theorem lenL : ∀ l : JList, sizeL l ≤ (dumpListSep l).length
  | .nil => le_refl 0
  | .cons v t => by
    have h1 := lenV v
    have h2 := lenL t
    simp only [sizeL, dumpListSep, List.length_cons, List.length_append]
    omega
/-- Fuel bound for member tails. -/
theorem lenO : ∀ o : JObj, sizeO o ≤ (dumpObjSep o).length
  | .nil => le_refl 0
  | .cons k v t => by
    have h1 := lenV v
    have h2 := lenO t
    have h3 := encStr_length k
    simp only [sizeO, dumpObjSep, List.length_cons, List.length_append]
    omega
end

/-! ### The encoder output is pure ASCII -/

/-- Hexadecimal escape digits are ASCII. -/
theorem mem_hex4_ascii (n : Nat) (d : Char) (hd : d ∈ hex4Chars n) : d.toNat < 128 := by
  have hhex : ∀ m : Nat, (hexDigitChar (m % 16)).toNat < 128 := by
    intro m
    rw [hexDigitChar_toNat (Nat.mod_lt _ (by omega))]
    have := Nat.mod_lt m (show 0 < 16 by omega)
    split_ifs <;> omega
  simp only [hex4Chars, List.mem_cons, List.not_mem_nil, or_false] at hd
  rcases hd with rfl | rfl | rfl | rfl <;> apply hhex

/-- Escape output is ASCII. -/
theorem escapeChar_ascii (c : Char) : ∀ d ∈ escapeChar c, d.toNat < 128 := by
  unfold escapeChar
  split_ifs with hq hb h8 h9 h10 h12 h13 hu hbmp
  · intro d hd
    simp only [List.mem_cons, List.not_mem_nil, or_false] at hd
    rcases hd with rfl | rfl <;> decide
  · intro d hd
    simp only [List.mem_cons, List.not_mem_nil, or_false] at hd
    rcases hd with rfl | rfl <;> decide
  · intro d hd
    simp only [List.mem_cons, List.not_mem_nil, or_false] at hd
    rcases hd with rfl | rfl <;> decide
  · intro d hd
    simp only [List.mem_cons, List.not_mem_nil, or_false] at hd
    rcases hd with rfl | rfl <;> decide
  · intro d hd
    simp only [List.mem_cons, List.not_mem_nil, or_false] at hd
    rcases hd with rfl | rfl <;> decide
  · intro d hd
    simp only [List.mem_cons, List.not_mem_nil, or_false] at hd
    rcases hd with rfl | rfl <;> decide
  · intro d hd
    simp only [List.mem_cons, List.not_mem_nil, or_false] at hd
    rcases hd with rfl | rfl <;> decide
  · intro d hd
    rcases List.mem_cons.mp hd with rfl | hd2
    · decide
    rcases List.mem_cons.mp hd2 with rfl | hd3
    · decide
    exact mem_hex4_ascii _ _ hd3
  · intro d hd
    rcases List.mem_cons.mp hd with rfl | hd2
    · decide
    rcases List.mem_cons.mp hd2 with rfl | hd3
    · decide
    rcases List.mem_append.mp hd3 with hh | hd4
    · exact mem_hex4_ascii _ _ hh
    rcases List.mem_cons.mp hd4 with rfl | hd5
    · decide
    rcases List.mem_cons.mp hd5 with rfl | hd6
    · decide
    exact mem_hex4_ascii _ _ hd6
  · intro d hd
    simp only [List.mem_cons, List.not_mem_nil, or_false] at hd
    subst hd
    push_neg at hu
    omega

/-- Rendered integers are ASCII. -/
theorem intChars_ascii (i : Int) : ∀ d ∈ intChars i, d.toNat < 128 := by
  have hnat : ∀ n : Nat, ∀ d ∈ natChars n, d.toNat < 128 := by
    intro n d hd
    by_cases h0 : n = 0
    · subst h0
      simp only [natChars, if_pos rfl, if_true, List.mem_cons, List.not_mem_nil,
        or_false] at hd
      subst hd
      decide
    · simp only [natChars, if_neg h0, List.mem_map] at hd
      obtain ⟨b, hb, rfl⟩ := hd
      have hb10 : b < 10 := natDigitsRev_lt10 n n b (List.mem_reverse.mp hb)
      rw [charToNat_ofNat_small (by omega)]
      omega
  cases i with
  | ofNat n => exact hnat n
  | negSucc n =>
    intro d hd
    rcases List.mem_cons.mp hd with rfl | hd2
    · decide
    · exact hnat (n + 1) d hd2

/-- Rendered string literals are ASCII. -/
theorem encStr_ascii (s : String) : ∀ d ∈ encStr s, d.toNat < 128 := by
  intro d hd
  rcases List.mem_cons.mp hd with rfl | hd2
  · decide
  rcases List.mem_append.mp hd2 with hd3 | hd4
  · obtain ⟨l, hl, hdl⟩ := List.mem_flatten.mp hd3
    obtain ⟨c, _, rfl⟩ := List.mem_map.mp hl
    exact escapeChar_ascii c d hdl
  · rcases List.mem_cons.mp hd4 with rfl | h5
    · decide
    · exact absurd h5 (List.not_mem_nil d)

mutual
/-- Encoded values are pure ASCII (the `ensure_ascii=True` guarantee). -/
theorem asciiV : ∀ v : JVal, ∀ d ∈ dumpChars v, d.toNat < 128
  | .jstr s => by
    simp only [dumpChars]
    exact encStr_ascii s
  | .jint i => by
    simp only [dumpChars]
    exact intChars_ascii i
  | .jbool true => by decide
  | .jbool false => by decide
  | .jnull => by decide
  | .jarr .nil => by decide
  | .jobj .nil => by decide
  | .jarr (.cons v t) => by
    intro d hd
    simp only [dumpChars] at hd
    rcases List.mem_cons.mp hd with rfl | hd2
    · decide
    rcases List.mem_append.mp hd2 with hd3 | hd4
    · simp only [dumpList] at hd3
      rcases List.mem_append.mp hd3 with h | h
      · exact asciiV v d h
      · exact asciiL t d h
    · rcases List.mem_cons.mp hd4 with rfl | h5
      · decide
      · exact absurd h5 (List.not_mem_nil d)
  | .jobj (.cons k v t) => by
    intro d hd
    simp only [dumpChars] at hd
    rcases List.mem_cons.mp hd with rfl | hd2
    · decide
    rcases List.mem_append.mp hd2 with hd3 | hd4
    · simp only [dumpObj] at hd3
      rcases List.mem_append.mp hd3 with h | h
      · exact encStr_ascii k d h
      rcases List.mem_cons.mp h with rfl | h
      · decide
      rcases List.mem_cons.mp h with rfl | h
      · decide
      rcases List.mem_append.mp h with h | h
      · exact asciiV v d h
      · exact asciiO t d h
    · rcases List.mem_cons.mp hd4 with rfl | h5
      · decide
      · exact absurd h5 (List.not_mem_nil d)
/-- Encoded element separators are pure ASCII. -/
theorem asciiL : ∀ l : JList, ∀ d ∈ dumpListSep l, d.toNat < 128
  | .nil => by decide
  | .cons v t => by
    intro d hd
    simp only [dumpListSep] at hd
    rcases List.mem_cons.mp hd with rfl | h
    · decide
    rcases List.mem_cons.mp h with rfl | h
    · decide
    rcases List.mem_append.mp h with h | h
    · exact asciiV v d h
    · exact asciiL t d h
/-- Encoded member separators are pure ASCII. -/
theorem asciiO : ∀ o : JObj, ∀ d ∈ dumpObjSep o, d.toNat < 128
  | .nil => by decide
  | .cons k v t => by
    intro d hd
    simp only [dumpObjSep] at hd
    rcases List.mem_cons.mp hd with rfl | h
    · decide
    rcases List.mem_cons.mp h with rfl | h
    · decide
    rcases List.mem_append.mp h with h | h
    · exact encStr_ascii k d h
    rcases List.mem_cons.mp h with rfl | h
    · decide
    rcases List.mem_cons.mp h with rfl | h
    · decide
    rcases List.mem_append.mp h with h | h
    · exact asciiV v d h
    · exact asciiO t d h
end

/-! ### UTF-8 on ASCII text -/

/-- UTF-8 on ASCII text is the identity on code points. -/
theorem utf8_ascii_map : ∀ s : List Char, (∀ c ∈ s, c.toNat < 128) →
    utf8 s = s.map Char.toNat
  | [], _ => rfl
  | c :: s, h => by
    have hc : c.toNat < 128 := h c (by simp)
    have hrec := utf8_ascii_map s (fun x hx => h x (by simp [hx]))
    simp only [utf8, List.map_cons, List.flatten_cons] at hrec ⊢
    rw [hrec]
    simp [utf8Char, hc]

/-- Strict UTF-8 decoding of ASCII bytes maps them back to characters. -/
theorem utf8Decode_ascii : ∀ (fuel : Nat) (bs : Bytes), (∀ b ∈ bs, b < 128) →
    bs.length < fuel → utf8Decode fuel bs = some (bs.map Char.ofNat)
  | 0, bs, _, h => by omega
  | fuel + 1, [], _, _ => rfl
  | fuel + 1, b :: bs, hb, hlen => by
    have h1 : b < 128 := hb b (by simp)
    have hrec := utf8Decode_ascii fuel bs (fun x hx => hb x (by simp [hx]))
      (by simp at hlen; omega)
    simp only [utf8Decode, if_pos h1, hrec, List.map_cons]
    rfl

/-- Decoding inverts encoding character by character. -/
theorem map_ofNat_toNat : ∀ s : List Char, (s.map Char.toNat).map Char.ofNat = s
  | [] => rfl
  | c :: s => by
    simp only [List.map_cons, Char.ofNat_toNat, map_ofNat_toNat s]

/-! ### The complete decode-encode round trip -/

/-- Scanning the full rendering of a valid value recovers it (model of
`json.loads` applied to the `json.dumps` output). -/
theorem loads_dumpChars (v : JVal) (hv : validV v = true) :
    loads (dumpChars v) = some v := by
  unfold loads
  have hfuel : sizeV v ≤ (dumpChars v).length + 1 := le_trans (lenV v) (by omega)
  have h := rtV v ((dumpChars v).length + 1) [] hv hfuel rfl
  rw [List.append_nil] at h
  rw [h]
  rfl

/-- Decoding the UTF-8 byte string of the rendering of a valid value recovers
it (model of the script's byte-level round trip). -/
theorem loadsBytes_utf8_dumpChars (v : JVal) (hv : validV v = true) :
    loadsBytes (utf8 (dumpChars v)) = some v := by
  unfold loadsBytes
  have henc : utf8 (dumpChars v) = (dumpChars v).map Char.toNat :=
    utf8_ascii_map (dumpChars v) (asciiV v)
  have hascii : ∀ b ∈ (dumpChars v).map Char.toNat, b < 128 := by
    intro b hbm
    obtain ⟨c, hc, rfl⟩ := List.mem_map.mp hbm
    exact asciiV v c hc
  have hdec : utf8Decode ((utf8 (dumpChars v)).length + 1) (utf8 (dumpChars v)) =
      some (((dumpChars v).map Char.toNat).map Char.ofNat) := by
    rw [henc]
    exact utf8Decode_ascii _ _ hascii (by omega)
  rw [hdec, map_ofNat_toNat]
  exact loads_dumpChars v hv

/-- Claim C2: for every valid metadata record, decoding the byte string
produced by encoding it (the model of `json.loads` after
`json.dumps(...).encode()`) yields an equal record; the witness instantiates
this at the script's record, whose text includes `"Wáng Fāng"`. -/
theorem c2_encode_decode_roundtrip (R : JVal) (h : validV R = true) :
    loadsBytes (utf8 (dumpChars R)) = some R :=
  loadsBytes_utf8_dumpChars R h

/-- Claim C2 (witness): the script's record, with its non-ASCII text, survives
the round trip. -/
theorem c2_encode_decode_roundtrip_witness :
    validV custom_meta_content = true ∧
    loadsBytes (utf8 (dumpChars custom_meta_content)) = some custom_meta_content :=
  ⟨by decide, c2_encode_decode_roundtrip custom_meta_content (by decide)⟩

/-- Claim C6: for every valid metadata record containing non-ASCII text, the
encoder's output byte string is ASCII-safe — every byte is an ASCII code —
and decoding that byte string reproduces the original record, its Unicode
text included. -/
theorem c6_ascii_safe_roundtrip (R : JVal) (hval : validV R = true)
    (_hna : hasNonAsciiV R = true) :
    (∀ b ∈ utf8 (dumpChars R), b < 128) ∧
    loadsBytes (utf8 (dumpChars R)) = some R := by
  constructor
  · intro b hb
    rw [utf8_ascii_map (dumpChars R) (asciiV R)] at hb
    obtain ⟨c, hc, rfl⟩ := List.mem_map.mp hb
    exact asciiV R c hc
  · exact loadsBytes_utf8_dumpChars R hval

/-- Claim C6 (witness): the script's record contains non-ASCII text, its
encoding is ASCII-safe, and it decodes back unchanged. -/
theorem c6_ascii_safe_roundtrip_witness :
    hasNonAsciiV custom_meta_content = true ∧
    (∀ b ∈ utf8 (dumpChars custom_meta_content), b < 128) ∧
    loadsBytes (utf8 (dumpChars custom_meta_content)) = some custom_meta_content :=
  ⟨by decide, c6_ascii_safe_roundtrip custom_meta_content (by decide) (by decide)⟩
